import Mathlib

/-!
Shallow embedding of the `ts-dag` repository's `Vertex` class (Vertex.ts):
vertex identity, edge insertion with cycle prevention (`addChild`, `_hasPath`),
the fan-in coordinator (`updateParentStatus`), the children snapshot
(`getChildren`), and the execution wrapper built in the constructor.
Symbols are embedded as natural-number identities; JS runtime values as the
inductive `JSVal`; the asynchronous execution wave as a nondeterministic
small-step transition system over an explicit scheduler state.
-/

namespace TsDag

/-- JS runtime values, as far as the merge logic inspects them:
`typeof v === "object" && v !== null && !Array.isArray(v)` distinguishes
plain records (`obj`) from `null`, arrays, and primitives. -/
inductive JSVal where
  | null
  | bool (b : Bool)
  | num (n : Int)
  | str (s : String)
  | arr (elems : List JSVal)
  | obj (fields : List (String × JSVal))
deriving Repr

/-- The runtime test `v !== null && typeof v === "object" && !Array.isArray(v)`
used by `updateParentStatus` to decide the merge strategy. -/
def isPlainObject : JSVal → Bool
  | .obj _ => true
  | _ => false

/-- Field list of a plain object (defaulting to `[]`; only applied to values
that passed `isPlainObject`). -/
def objFieldsD : JSVal → List (String × JSVal)
  | .obj fs => fs
  | _ => []

/-- `map.set(k, v)` / `target[k] = v` semantics on an insertion-ordered
association list: an existing key keeps its original position and gets the
new value; a fresh key is appended. This is how both a JS `Map` and a JS
object property write behave. -/
def mapSet {κ : Type} [DecidableEq κ] {β : Type} :
    List (κ × β) → κ → β → List (κ × β)
  | [], k, v => [(k, v)]
  | (k', v') :: rest, k, v =>
    if k' = k then (k, v) :: rest else (k', v') :: mapSet rest k v

/-- First-match lookup in an insertion-ordered association list. -/
def getKey {κ : Type} [DecidableEq κ] {β : Type} :
    List (κ × β) → κ → Option β
  | [], _ => none
  | (k', v) :: rest, k => if k' = k then some v else getKey rest k

/-- Option fallback: the first `some` wins. -/
def firstSome {β : Type} : Option β → Option β → Option β
  | some v, _ => some v
  | none, o => o

/-- One `Object.assign(target, src)` step: fold the source's fields into the
target, later writes overwriting earlier values in place. -/
def assignFields (target src : List (String × JSVal)) : List (String × JSVal) :=
  src.foldl (fun acc kv => mapSet acc kv.1 kv.2) target

/-- `Object.assign({}, ...sources)`: shallow-merge the sources left to right
into a fresh object. -/
def objAssign (sources : List (List (String × JSVal))) : List (String × JSVal) :=
  sources.foldl assignFields []

/-- The per-vertex fan-in coordinator state: `parents` embeds the
`Set<symbol>` of registered parent keys (insertion order, no duplicates by
construction), `statuses` embeds the `Map<symbol, unknown>` `$parentStatuses`
of recorded parent results (insertion order = arrival order). -/
structure VState where
  parents : List Nat
  statuses : List (Nat × JSVal)
deriving Repr

/-- `updateParentStatus(parentKey, value)` from Vertex.ts: record the result;
return without firing while fewer statuses than registered parents have been
recorded (or when there are zero parents); on a full house dispatch — a single
parent's value is passed through unchanged, multiple all-record results are
shallow-merged in arrival order, otherwise the raw results are passed as an
ordered array. The second component is the dispatch input handed to
`this.execute` (`none` = no firing). -/
def updateParentStatus (s : VState) (parentKey : Nat) (value : JSVal) :
    VState × Option JSVal :=
  let statuses := mapSet s.statuses parentKey value
  if s.parents.length = 0 ∨ statuses.length < s.parents.length then
    (⟨s.parents, statuses⟩, none)
  else if s.parents.length = 1 then
    (⟨s.parents, statuses⟩, some value)
  else
    let values := statuses.map Prod.snd
    if values.all isPlainObject then
      (⟨s.parents, statuses⟩, some (JSVal.obj (objAssign (values.map objFieldsD))))
    else
      (⟨s.parents, statuses⟩, some (JSVal.arr values))

/-- Run a sequence of `updateParentStatus` calls against one coordinator,
collecting the dispatch inputs of every firing in order. -/
def runCalls (s : VState) : List (Nat × JSVal) → VState × List JSVal
  | [] => (s, [])
  | (k, v) :: rest =>
    let step := updateParentStatus s k v
    let tail := runCalls step.1 rest
    (tail.1, step.2.toList ++ tail.2)

/-- A vertex's edge registry: `$children` is the insertion-ordered key set of
the `Map<symbol, AnyVertex>` of outgoing edges, `parents` the insertion-ordered
`Set<symbol>` of incoming edge identities. -/
structure GVertex where
  children : List Nat
  parents : List Nat
deriving Repr, DecidableEq

/-- The whole graph: vertices indexed by their identity (the embedding of the
unique `Symbol("vertex")` keys). -/
structure Graph where
  verts : List GVertex
deriving Repr, DecidableEq

/-- Vertex lookup; out-of-range identities denote a vertex with no edges. -/
def getV (g : Graph) (i : Nat) : GVertex := g.verts.getD i ⟨[], []⟩

/-- The children-edge relation `p → c`. -/
def Edge (g : Graph) (p c : Nat) : Prop := c ∈ (getV g p).children

/-- Reachability along zero or more children edges. -/
def Reaches (g : Graph) (a b : Nat) : Prop := Relation.ReflTransGen (Edge g) a b

/-- Global acyclicity: no vertex has a (nonempty) path to itself through
children edges. -/
def Acyclic (g : Graph) : Prop := ∀ v, ¬ Relation.TransGen (Edge g) v v

/-- All children identities stored in the graph point at real vertices. -/
def Bounded (g : Graph) : Prop :=
  ∀ i < g.verts.length, ∀ c ∈ (getV g i).children, c < g.verts.length

instance (g : Graph) : Decidable (Bounded g) := by
  unfold Bounded; infer_instance

/-- The `for (const child of from.$children.values())` loop of `_hasPath`:
try each child in order with the shared, growing visited set, returning on the
first hit. `step` is the recursive call at the next depth. -/
def loopChildren (step : Nat → List Nat → Option (Bool × List Nat)) :
    List Nat → List Nat → Option (Bool × List Nat)
  | [], seen => some (false, seen)
  | c :: rest, seen =>
    match step c seen with
    | none => none
    | some (true, seen') => some (true, seen')
    | some (false, seen') => loopChildren step rest seen'

/-- `_hasPath(from, to, seen)` from Vertex.ts: depth-first reachability with a
shared visited set. The JS recursion is bounded by the finiteness of the heap;
the embedding makes that explicit with fuel (`none` = fuel exhausted, which the
top-level wrapper treats conservatively as "path found"). -/
def hasPathAux (g : Graph) (tgt : Nat) : Nat → Nat → List Nat → Option (Bool × List Nat)
  | 0, _, _ => none
  | fuel + 1, a, seen =>
    if a = tgt then some (true, seen)
    else if a ∈ seen then some (false, seen)
    else loopChildren (fun c s => hasPathAux g tgt fuel c s) ((getV g a).children) (a :: seen)

/-- Top-level `_hasPath(from, to)` with a fresh visited set; fuel one more than
the number of vertices, enough to visit every vertex once. -/
def hasPath (g : Graph) (a b : Nat) : Bool :=
  match hasPathAux g b (g.verts.length + 1) a [] with
  | some (found, _) => found
  | none => true

/-- The visited-set invariant produced by an unsuccessful search: every vertex
the search newly added to the visited set (relative to `seen`) had all of its
children explored into `S`. -/
def ClosedFrom (g : Graph) (seen S : List Nat) : Prop :=
  ∀ x ∈ S, x ∉ seen → ∀ y ∈ (getV g x).children, y ∈ S

/-- The three `VertexError` failure modes of `addChild`, distinguished exactly
as the source distinguishes them by message: "Cannot add self as a child.",
"Duplicate vertex key added.", "Adding this edge would create a cycle." -/
inductive VError where
  | selfRef
  | duplicateEdge
  | cycle
deriving Repr, DecidableEq

/-- Replace the vertex stored at identity `i` (no-op when out of range). -/
def setV (g : Graph) (i : Nat) (v : GVertex) : Graph := ⟨g.verts.set i v⟩

/-- `addChild(vertex)` from Vertex.ts, as a state transformer on the graph of
both endpoints: guards checked in source order (self, duplicate key, cycle),
each returning with the graph untouched; on success `this.$children.set(key,
vertex)` appends the child and `vertex.parents.add(this.key)` records the
parent (a `Set`, so adding an already-present key is a no-op). -/
def addChild (g : Graph) (p c : Nat) : Graph × Option VError :=
  if p = c then (g, some .selfRef)
  else if c ∈ (getV g p).children then (g, some .duplicateEdge)
  else if hasPath g c p then (g, some .cycle)
  else
    let pv := getV g p
    let cv := getV g c
    let g1 := setV g p ⟨pv.children ++ [c], pv.parents⟩
    let g2 := setV g1 c
      ⟨cv.children, if p ∈ cv.parents then cv.parents else cv.parents ++ [p]⟩
    (g2, none)

/-- A graph of `n` freshly created vertices: no edges anywhere. -/
def initGraph (n : Nat) : Graph := ⟨List.replicate n ⟨[], []⟩⟩

/-- Run a sequence of `addChild` calls; the Boolean records whether every
single call succeeded. -/
def runInserts (g : Graph) : List (Nat × Nat) → Graph × Bool
  | [] => (g, true)
  | (p, c) :: rest =>
    let step := addChild g p c
    let tail := runInserts step.1 rest
    (tail.1, step.2.isNone && tail.2)

/-! ### Children sets as heap objects

`getChildren()` returns `new Set(this.$children.values())`. Whether that is a
snapshot or an alias of the internal storage is a heap question, so the
children collections are modelled in a small explicit heap: each cell is one
JS `Set`/`Map` key collection, and a vertex's internal `$children` lives at a
fixed cell. -/

/-- A heap of children collections; a reference is an index into `cells`. -/
structure ChildHeap where
  cells : List (List Nat)
deriving Repr, DecidableEq

/-- Dereference (out-of-range references denote an empty collection). -/
def heapGet (h : ChildHeap) (r : Nat) : List Nat := h.cells.getD r []

/-- `getChildren()` from Vertex.ts: `return new Set(this.$children.values())` —
allocate a fresh cell holding a copy of the internal collection's current
contents and return its reference. -/
def getChildren (h : ChildHeap) (internalRef : Nat) : Nat × ChildHeap :=
  (h.cells.length, ⟨h.cells ++ [heapGet h internalRef]⟩)

/-- The mutation a successful `addChild` performs on the parent's internal
`$children` store: `this.$children.set(vertex.key, vertex)`, which appends the
fresh key in place. -/
def addChildStore (h : ChildHeap) (internalRef : Nat) (c : Nat) : ChildHeap :=
  ⟨h.cells.set internalRef (heapGet h internalRef ++ [c])⟩

/-! ### The execution wave

The constructor wraps the user work function: `execute` awaits
`builder.execute(input)`, then calls `child.updateParentStatus(this.key,
result)` for every child (a `forEach` whose returned promises are ignored),
then resolves with the result. A firing child's own work starts inside that
fan-out; its completion is a separate, later event-loop turn. The wave is
embedded as a transition system: a scheduler state holds every work invocation
currently in flight, and a step nondeterministically completes one of them,
emitting trace events. -/

/-- User work functions for a whole graph: `work v input` is vertex `v`'s
underlying `builder.execute` applied to `input` — `Except.error e` embeds a
rejection/throw with value `e`. -/
structure ExecGraph where
  work : Nat → JSVal → Except JSVal JSVal
  children : Nat → List Nat
  parents : Nat → List Nat

/-- Observable events of a wave, in event-loop order: `start v i` = `v`'s work
function begins with input `i`; `finish v r` = `v`'s work completed
successfully with `r`; `fail v e` = `v`'s work rejected with `e` (the wrapper
rethrows it unchanged to whoever awaited `execute`); `notify p c r` =
`c.updateParentStatus(p.key, r)` was invoked; `resolve v r` = `v`'s `execute`
promise resolved with `r`. -/
inductive Event where
  | start (v : Nat) (input : JSVal)
  | finish (v : Nat) (result : JSVal)
  | fail (v : Nat) (err : JSVal)
  | notify (parent child : Nat) (result : JSVal)
  | resolve (v : Nat) (result : JSVal)
deriving Repr

/-- Scheduler state: per-vertex `$parentStatuses`, the work invocations in
flight, and the event trace so far. -/
structure EState where
  statuses : Nat → List (Nat × JSVal)
  running : List (Nat × JSVal)
  trace : List Event

/-- The `this.$children.forEach((child) => child.updateParentStatus(this.key,
result))` fan-out after `p`'s work completed with `r`: notify each child in
order; a child whose parents are now all recorded fires — its work starts
immediately and joins the in-flight set. -/
def fanoutStep (G : ExecGraph) (p : Nat) (r : JSVal) (c : Nat) (s : EState) : EState :=
  let upd := updateParentStatus ⟨G.parents c, s.statuses c⟩ p r
  { statuses := fun x => if x = c then upd.1.statuses else s.statuses x
    running := s.running ++ (match upd.2 with
      | some inp => [(c, inp)]
      | none => [])
    trace := s.trace ++ (Event.notify p c r :: (match upd.2 with
      | some inp => [Event.start c inp]
      | none => [])) }

def fanout (G : ExecGraph) (p : Nat) (r : JSVal) :
    List Nat → EState → EState
  | [], s => s
  | c :: rest, s => fanout G p r rest (fanoutStep G p r c s)

/-- Complete the `i`-th in-flight work invocation. On success the work result
is fixed first (`finish`), the fan-out runs, and only then does the wrapper's
promise resolve (`resolve`) — mirroring `await impl(input); forEach(...);
return result`. On rejection the error propagates (`fail`) and no child is
notified. -/
def stepAt (G : ExecGraph) (s : EState) (i : Fin s.running.length) : EState :=
  let task := s.running.get i
  let rest := s.running.eraseIdx i
  match G.work task.1 task.2 with
  | .error e =>
    { statuses := s.statuses, running := rest,
      trace := s.trace ++ [Event.fail task.1 e] }
  | .ok r =>
    let s1 : EState :=
      { statuses := s.statuses, running := rest,
        trace := s.trace ++ [Event.finish task.1 r] }
    let s2 := fanout G task.1 r (G.children task.1) s1
    { statuses := s2.statuses, running := s2.running,
      trace := s2.trace ++ [Event.resolve task.1 r] }

/-- One scheduler step: some in-flight work invocation completes. -/
def EStep (G : ExecGraph) (s s' : EState) : Prop :=
  ∃ i : Fin s.running.length, s' = stepAt G s i

/-- The state right after a caller invokes `execute(input)` on vertex `r`:
`r`'s work has started, nothing is recorded yet. -/
def initState (r : Nat) (input : JSVal) : EState :=
  { statuses := fun _ => [], running := [(r, input)],
    trace := [Event.start r input] }

/-- States reachable during the wave triggered by `execute(input)` on `r`. -/
def ReachableFrom (G : ExecGraph) (r : Nat) (input : JSVal) (s : EState) : Prop :=
  Relation.ReflTransGen (EStep G) (initState r input) s

/-- The shape every graph built through `addChild` has: a committed edge
records the parent's key in the child's `parents` set (so children membership
implies parents membership), and a `Set` never holds duplicates. -/
def EWF (G : ExecGraph) : Prop :=
  (∀ p c, c ∈ G.children p → p ∈ G.parents c) ∧ (∀ v, (G.parents v).Nodup)

/-- Graph used by the execution-model witnesses: `0 → 1`, both works succeed. -/
def lineGraph : ExecGraph where
  work := fun v inp => if v = 1 then Except.ok (JSVal.num 7) else Except.ok inp
  children := fun v => if v = 0 then [1] else []
  parents := fun v => if v = 1 then [0] else []

/-- Graph used by the failure witnesses: `0 → 1`, vertex 0's work always
rejects. -/
def failGraph : ExecGraph where
  work := fun v inp => if v = 0 then Except.error (JSVal.str "boom") else Except.ok inp
  children := fun v => if v = 0 then [1] else []
  parents := fun v => if v = 1 then [0] else []

/-- Concrete three-vertex chain `0 → 1 → 2`, used by witnesses. -/
def chainGraph : Graph := ⟨[⟨[1], []⟩, ⟨[2], [0]⟩, ⟨[], [1]⟩]⟩

/-- The bookkeeping invariant of a wave started by `execute(input)` on `root`:
every recorded status points at a finished parent work, statuses are keyed by
distinct registered parents, every in-flight task and every successful finish
traces back to a start, notifications only carry finished results, resolutions
carry the vertex's own work result, and every work start other than the
caller's initial one happens strictly after a successful finish of each of the
vertex's registered parents. -/
structure EInv (G : ExecGraph) (root : Nat) (input : JSVal) (s : EState) : Prop where
  first : s.trace[0]? = some (Event.start root input)
  hb : ∀ i c inp, s.trace[i]? = some (Event.start c inp) → i = 0 ∨
    ∀ p ∈ G.parents c, ∃ j, j < i ∧ ∃ r, s.trace[j]? = some (Event.finish p r)
  rec_fin : ∀ c p val, (p, val) ∈ s.statuses c → Event.finish p val ∈ s.trace
  keys_par : ∀ c p, p ∈ (s.statuses c).map Prod.fst → p ∈ G.parents c
  keys_nd : ∀ c, ((s.statuses c).map Prod.fst).Nodup
  run_st : ∀ v inp, (v, inp) ∈ s.running → Event.start v inp ∈ s.trace
  fin_work : ∀ v r, Event.finish v r ∈ s.trace →
    ∃ inp, Event.start v inp ∈ s.trace ∧ G.work v inp = Except.ok r
  ntf_fin : ∀ p c r, Event.notify p c r ∈ s.trace → Event.finish p r ∈ s.trace
  res_work : ∀ v r, Event.resolve v r ∈ s.trace →
    ∃ inp, Event.start v inp ∈ s.trace ∧ G.work v inp = Except.ok r

/-- The state after the single scheduler step of `execute(1)` on `lineGraph`'s
root. -/
def lineStep1 : EState :=
  stepAt lineGraph (initState 0 (JSVal.num 1)) ⟨0, Nat.zero_lt_one⟩

/-- The state after the single scheduler step of `execute(null)` on
`failGraph`'s root, whose work rejects. -/
def failStep1 : EState :=
  stepAt failGraph (initState 0 JSVal.null) ⟨0, Nat.zero_lt_one⟩

/-! ## Association-list facts -/

theorem mapSet_of_not_mem {κ β : Type} [DecidableEq κ] {m : List (κ × β)} {k : κ} {v : β}
    (h : k ∉ m.map Prod.fst) : mapSet m k v = m ++ [(k, v)] := by
  induction m with
  | nil => rfl
  | cons kv rest ih =>
    simp only [List.map_cons, List.mem_cons] at h
    push_neg at h
    simp [mapSet, Ne.symm h.1, ih h.2]

theorem keys_mapSet {κ β : Type} [DecidableEq κ] (m : List (κ × β)) (k : κ) (v : β) :
    (mapSet m k v).map Prod.fst =
      if k ∈ m.map Prod.fst then m.map Prod.fst else m.map Prod.fst ++ [k] := by
  induction m with
  | nil => simp [mapSet]
  | cons kv rest ih =>
    by_cases hk : kv.1 = k
    · subst hk
      simp [mapSet]
    · have : (kv.1 = k) = False := by simp [hk]
      simp only [mapSet, this, if_false, List.map_cons]
      rw [ih]
      by_cases hmem : k ∈ rest.map Prod.fst
      · simp [hmem, Ne.symm hk]
      · simp [hmem, Ne.symm hk]

theorem length_mapSet {κ β : Type} [DecidableEq κ] (m : List (κ × β)) (k : κ) (v : β) :
    (mapSet m k v).length =
      if k ∈ m.map Prod.fst then m.length else m.length + 1 := by
  have h1 : (mapSet m k v).length = ((mapSet m k v).map Prod.fst).length := by simp
  have h2 : m.length = (m.map Prod.fst).length := by simp
  rw [h1, h2, keys_mapSet]
  by_cases hmem : k ∈ m.map Prod.fst <;> simp [hmem]

theorem length_mapSet_pos {κ β : Type} [DecidableEq κ] (m : List (κ × β)) (k : κ) (v : β) :
    1 ≤ (mapSet m k v).length := by
  rw [length_mapSet]
  by_cases hmem : k ∈ m.map Prod.fst
  · simp only [hmem, if_true]
    rcases m with _ | ⟨kv, rest⟩
    · simp at hmem
    · simp
  · simp [hmem]

theorem mem_mapSet {κ β : Type} [DecidableEq κ] {m : List (κ × β)} {k : κ} {v : β}
    {x : κ × β} (h : x ∈ mapSet m k v) : x ∈ m ∨ x = (k, v) := by
  induction m with
  | nil => simpa [mapSet] using h
  | cons kv rest ih =>
    by_cases hk : kv.1 = k
    · subst hk
      simp only [mapSet, if_true] at h
      rcases List.mem_cons.mp h with h | h
      · right; exact h
      · left; exact List.mem_cons_of_mem _ h
    · have : (kv.1 = k) = False := by simp [hk]
      simp only [mapSet, this, if_false] at h
      rcases List.mem_cons.mp h with h | h
      · left; exact h ▸ List.mem_cons_self _ _
      · rcases ih h with h | h
        · left; exact List.mem_cons_of_mem _ h
        · right; exact h

theorem nodup_keys_mapSet {κ β : Type} [DecidableEq κ] {m : List (κ × β)} (k : κ) (v : β)
    (h : (m.map Prod.fst).Nodup) : ((mapSet m k v).map Prod.fst).Nodup := by
  rw [keys_mapSet]
  by_cases hmem : k ∈ m.map Prod.fst
  · simpa [hmem]
  · simp only [hmem, if_false]
    have := (h.concat hmem)
    simpa [List.concat_eq_append] using this

theorem getKey_append {κ β : Type} [DecidableEq κ] (l₁ l₂ : List (κ × β)) (k : κ) :
    getKey (l₁ ++ l₂) k = firstSome (getKey l₁ k) (getKey l₂ k) := by
  induction l₁ with
  | nil => simp [getKey, firstSome]
  | cons kv rest ih =>
    by_cases hk : kv.1 = k
    · simp [getKey, hk, firstSome]
    · simp [getKey, hk, ih]

theorem getKey_mapSet {κ β : Type} [DecidableEq κ] (t : List (κ × β)) (k0 k : κ) (v0 : β) :
    getKey (mapSet t k0 v0) k = if k0 = k then some v0 else getKey t k := by
  induction t with
  | nil => by_cases h : k0 = k <;> simp [mapSet, getKey, h]
  | cons kv rest ih =>
    by_cases h1 : kv.1 = k0
    · by_cases h2 : k0 = k
      · simp [mapSet, getKey, h1, h2]
      · have h3 : ¬ kv.1 = k := by rw [h1]; exact h2
        simp [mapSet, getKey, h1, h2, h3]
    · by_cases h2 : kv.1 = k
      · have h3 : ¬ k0 = k := fun hh => h1 (by rw [h2, hh])
        have h4 : ¬ k = k0 := fun hh => h3 hh.symm
        simp [mapSet, getKey, h1, h2, h3, h4]
      · simp [mapSet, getKey, h1, h2, ih]

theorem firstSome_assoc' {β : Type} (a b c : Option β) :
    firstSome (firstSome a b) c = firstSome a (firstSome b c) := by
  cases a <;> cases b <;> simp [firstSome]

theorem getKey_assignFields {t src : List (String × JSVal)} (k : String) :
    getKey (assignFields t src) k = firstSome (getKey src.reverse k) (getKey t k) := by
  induction src generalizing t with
  | nil => simp [assignFields, getKey, firstSome]
  | cons kv rest ih =>
    have step : assignFields t (kv :: rest) = assignFields (mapSet t kv.1 kv.2) rest := by
      simp [assignFields]
    rw [step, ih, List.reverse_cons, getKey_append, firstSome_assoc']
    congr 1
    rw [getKey_mapSet]
    by_cases h : kv.1 = k <;> simp [getKey, h, firstSome]

theorem firstSome_none_right {β : Type} (a : Option β) : firstSome a none = a := by
  cases a <;> simp [firstSome]

theorem getKey_foldl_assign (vs : List (List (String × JSVal)))
    (t : List (String × JSVal)) (k : String) :
    getKey (vs.foldl assignFields t) k
      = firstSome (getKey vs.flatten.reverse k) (getKey t k) := by
  induction vs generalizing t with
  | nil => simp [getKey, firstSome]
  | cons f rest ih =>
    have hjoin : ((f :: rest).flatten).reverse = rest.flatten.reverse ++ f.reverse := by
      simp
    rw [List.foldl_cons, ih, getKey_assignFields, hjoin, getKey_append, firstSome_assoc']

theorem getKey_objAssign (vs : List (List (String × JSVal))) (k : String) :
    getKey (objAssign vs) k = getKey vs.flatten.reverse k := by
  rw [objAssign, getKey_foldl_assign]
  simp [getKey, firstSome_none_right]

/-! ## Fan-in coordinator facts -/

theorem upd_fst (s : VState) (k : Nat) (v : JSVal) :
    (updateParentStatus s k v).1 = ⟨s.parents, mapSet s.statuses k v⟩ := by
  simp only [updateParentStatus]
  split
  · rfl
  · split
    · rfl
    · split <;> rfl

theorem upd_none_iff (s : VState) (k : Nat) (v : JSVal) :
    (updateParentStatus s k v).2 = none ↔
      (s.parents.length = 0 ∨ (mapSet s.statuses k v).length < s.parents.length) := by
  simp only [updateParentStatus]
  split
  · simp only [true_iff]
    assumption
  · rename_i hcond
    split
    · simpa using hcond
    · split <;> simpa using hcond

theorem upd_fire_iff (s : VState) (k : Nat) (v : JSVal) (h1 : 1 ≤ s.parents.length) :
    ((updateParentStatus s k v).2).isSome ↔
      s.parents.length ≤ (mapSet s.statuses k v).length := by
  constructor
  · intro h
    by_contra hlt
    have hn : (updateParentStatus s k v).2 = none :=
      (upd_none_iff s k v).mpr (Or.inr (by omega))
    rw [hn] at h
    simp at h
  · intro hle
    cases hval : (updateParentStatus s k v).2 with
    | none =>
      have := (upd_none_iff s k v).mp hval
      omega
    | some val => simp

theorem runCalls_cons (s : VState) (k : Nat) (v : JSVal) (rest : List (Nat × JSVal)) :
    runCalls s ((k, v) :: rest) =
      ((runCalls (updateParentStatus s k v).1 rest).1,
        (updateParentStatus s k v).2.toList
          ++ (runCalls (updateParentStatus s k v).1 rest).2) := rfl

theorem upd_none_of_lt (s : VState) (k : Nat) (v : JSVal)
    (h : (mapSet s.statuses k v).length < s.parents.length) :
    (updateParentStatus s k v).2 = none :=
  (upd_none_iff s k v).mpr (Or.inr h)

theorem upd_single (s : VState) (k : Nat) (v : JSVal) (h : s.parents.length = 1) :
    (updateParentStatus s k v).2 = some v := by
  have hlen := length_mapSet_pos s.statuses k v
  have hcond :
      ¬ (s.parents.length = 0 ∨ (mapSet s.statuses k v).length < s.parents.length) := by
    omega
  simp only [updateParentStatus]
  rw [if_neg hcond, if_pos h]

theorem upd_multi (s : VState) (k : Nat) (v : JSVal) (h2 : 2 ≤ s.parents.length)
    (hfull : s.parents.length ≤ (mapSet s.statuses k v).length) :
    (updateParentStatus s k v).2 =
      (if ((mapSet s.statuses k v).map Prod.snd).all isPlainObject then
        some (JSVal.obj (objAssign (((mapSet s.statuses k v).map Prod.snd).map objFieldsD)))
      else some (JSVal.arr ((mapSet s.statuses k v).map Prod.snd))) := by
  have hcond :
      ¬ (s.parents.length = 0 ∨ (mapSet s.statuses k v).length < s.parents.length) := by
    omega
  have hone : ¬ s.parents.length = 1 := by omega
  simp only [updateParentStatus]
  rw [if_neg hcond, if_neg hone]
  split <;> simp_all

/-- Running a fresh, duplicate-free sequence of reports that exactly fills a
multi-parent coordinator records them in arrival order and fires once, at the
last report, with the merged input. -/
theorem runCalls_fresh_full :
    ∀ (calls : List (Nat × JSVal)) (s : VState),
      2 ≤ s.parents.length →
      (calls.map Prod.fst).Nodup →
      (∀ x ∈ calls.map Prod.fst, x ∉ s.statuses.map Prod.fst) →
      s.statuses.length + calls.length = s.parents.length →
      calls ≠ [] →
      runCalls s calls =
        (⟨s.parents, s.statuses ++ calls⟩,
          if ((s.statuses ++ calls).map Prod.snd).all isPlainObject then
            [JSVal.obj (objAssign (((s.statuses ++ calls).map Prod.snd).map objFieldsD))]
          else [JSVal.arr ((s.statuses ++ calls).map Prod.snd)]) := by
  intro calls
  induction calls with
  | nil => intro s _ _ _ _ hne; exact absurd rfl hne
  | cons kv rest ih =>
    intro s h2 hnd hfresh hlen _
    obtain ⟨k, v⟩ := kv
    have hkfresh : k ∉ s.statuses.map Prod.fst := by
      exact hfresh k (by simp)
    have hset : mapSet s.statuses k v = s.statuses ++ [(k, v)] :=
      mapSet_of_not_mem hkfresh
    rcases rest with _ | ⟨kv2, rest2⟩
    · -- the single, final report
      have hfull : s.parents.length ≤ (mapSet s.statuses k v).length := by
        rw [hset]; simp at hlen ⊢; omega
      have hfire := upd_multi s k v h2 hfull
      rw [runCalls_cons, upd_fst, hfire, hset]
      simp only [runCalls]
      split <;> simp
    · -- an intermediate report: no firing, recurse
      have hlt : (mapSet s.statuses k v).length < s.parents.length := by
        rw [hset]; simp at hlen ⊢; omega
      have hnone := upd_none_of_lt s k v hlt
      have hstep : (updateParentStatus s k v).1 = ⟨s.parents, s.statuses ++ [(k, v)]⟩ := by
        rw [upd_fst, hset]
      have hnd2 : ((kv2 :: rest2).map Prod.fst).Nodup := by
        simpa using hnd.of_cons
      have hfresh2 : ∀ x ∈ (kv2 :: rest2).map Prod.fst,
          x ∉ (s.statuses ++ [(k, v)]).map Prod.fst := by
        intro x hx
        simp only [List.map_append, List.mem_append, List.map_cons, List.map_nil]
        push_neg
        refine ⟨hfresh x (by simp at hx ⊢; tauto), ?_⟩
        intro hxk
        simp at hxk
        subst hxk
        simp at hnd
        simp at hx
        tauto
      have hlen2 : (s.statuses ++ [(k, v)]).length + (kv2 :: rest2).length
          = s.parents.length := by
        simp at hlen ⊢; omega
      have hrec := ih ⟨s.parents, s.statuses ++ [(k, v)]⟩ h2 hnd2 hfresh2 hlen2 (by simp)
      rw [runCalls_cons, hstep, hnone, hrec]
      have hl : s.statuses ++ [(k, v)] ++ kv2 :: rest2 = s.statuses ++ (k, v) :: kv2 :: rest2 := by
        simp
      simp only [hl]
      simp

/-- Running a fresh, duplicate-free sequence of reports that at most fills the
coordinator fires exactly once if it exactly fills it, and never otherwise. -/
theorem runCalls_fresh_count :
    ∀ (calls : List (Nat × JSVal)) (s : VState),
      1 ≤ s.parents.length →
      (calls.map Prod.fst).Nodup →
      (∀ x ∈ calls.map Prod.fst, x ∉ s.statuses.map Prod.fst) →
      s.statuses.length + calls.length ≤ s.parents.length →
      ((runCalls s calls).2).length =
        (if s.statuses.length + calls.length = s.parents.length ∧ 1 ≤ calls.length
          then 1 else 0) := by
  intro calls
  induction calls with
  | nil => intro s _ _ _ _; simp [runCalls]
  | cons kv rest ih =>
    intro s h1 hnd hfresh hlen
    obtain ⟨k, v⟩ := kv
    have hkfresh : k ∉ s.statuses.map Prod.fst := hfresh k (by simp)
    have hset : mapSet s.statuses k v = s.statuses ++ [(k, v)] :=
      mapSet_of_not_mem hkfresh
    have hstep : (updateParentStatus s k v).1 = ⟨s.parents, s.statuses ++ [(k, v)]⟩ := by
      rw [upd_fst, hset]
    have hnd2 : (rest.map Prod.fst).Nodup := by simpa using hnd.of_cons
    have hfresh2 : ∀ x ∈ rest.map Prod.fst,
        x ∉ (s.statuses ++ [(k, v)]).map Prod.fst := by
      intro x hx
      simp only [List.map_append, List.mem_append, List.map_cons, List.map_nil]
      push_neg
      refine ⟨hfresh x (by simp at hx ⊢; tauto), ?_⟩
      intro hxk
      simp at hxk
      subst hxk
      simp at hnd hx
      tauto
    rcases Nat.lt_or_ge (s.statuses.length + 1) s.parents.length with hmid | hend
    · -- strictly below the threshold after this report: no firing yet
      have hlt : (mapSet s.statuses k v).length < s.parents.length := by
        rw [hset]; simp; omega
      have hnone := upd_none_of_lt s k v hlt
      have hlen2 : (s.statuses ++ [(k, v)]).length + rest.length ≤ s.parents.length := by
        simp at hlen ⊢; omega
      have hrec := ih ⟨s.parents, s.statuses ++ [(k, v)]⟩ h1 hnd2 hfresh2 hlen2
      rw [runCalls_cons, hstep, hnone]
      simp only [Option.toList_none, List.nil_append]
      rw [hrec]
      simp only [List.length_append, List.length_cons, List.length_nil]
      split <;> split <;> omega
    · -- reaches the threshold: fires now, and the sequence must end here
      have hfull : s.parents.length ≤ (mapSet s.statuses k v).length := by
        rw [hset]; simp; omega
      have hfire := (upd_fire_iff s k v h1).mpr hfull
      have hrest : rest = [] := by
        rcases rest with _ | _
        · rfl
        · exfalso; simp at hlen; omega
      subst hrest
      rcases hval : (updateParentStatus s k v).2 with _ | val
      · rw [hval] at hfire; simp at hfire
      · rw [runCalls_cons, hval]
        simp only [runCalls, Option.toList_some, List.singleton_append,
          List.length_cons, List.length_nil]
        simp at hlen
        split <;> omega

/-- C1 (amended): with `N >= 1` registered parents, an `updateParentStatus`
call fires the vertex exactly when, after the call's own result is recorded,
the number of distinct reported parent ids is at least `N`; in particular a
duplicate-free report sequence of length `N` on a fresh coordinator fires the
work function exactly once, on its last report. (The original claim's "a
duplicate call from a parent that has already reported must not cause a second
firing" holds only before the wave has completed; once all `N` parents have
reported, any further call — duplicate included — fires the vertex again, see
the counterexample.) -/
theorem c1_firing_characterization :
    (∀ (s : VState) (k : Nat) (v : JSVal), 1 ≤ s.parents.length →
      (((updateParentStatus s k v).2).isSome ↔
        s.parents.length ≤ (mapSet s.statuses k v).length))
    ∧ (∀ (ps : List Nat) (calls : List (Nat × JSVal)),
        1 ≤ ps.length → (calls.map Prod.fst).Nodup → calls.length = ps.length →
        ((runCalls ⟨ps, []⟩ calls).2).length = 1) := by
  constructor
  · exact fun s k v h1 => upd_fire_iff s k v h1
  · intro ps calls h1 hnd hlen
    have h := runCalls_fresh_count calls ⟨ps, []⟩ h1 hnd (by simp) (by simp [hlen])
    rw [h]
    have hc : 1 ≤ calls.length := by omega
    simp [hlen, hc]
    intro h0
    rw [h0] at h1
    simp at h1

theorem c1_firing_characterization_witness :
    (¬ ((updateParentStatus ⟨[0, 1], []⟩ 0 JSVal.null).2).isSome)
    ∧ ((runCalls ⟨[0, 1], []⟩ [(0, JSVal.null), (1, JSVal.null)]).2).length = 1 :=
  ⟨fun h => by
      have h2 := (c1_firing_characterization.1 ⟨[0, 1], []⟩ 0 JSVal.null (by decide)).mp h
      simp [mapSet] at h2,
    c1_firing_characterization.2 [0, 1] [(0, JSVal.null), (1, JSVal.null)]
      (by decide) (by decide) rfl⟩

/-- C1 (counterexample): a vertex with the two registered parents `0` and `1`
receives their two reports and then a duplicate report from parent `0`; the
duplicate finds `$parentStatuses.size` still equal to `parents.size` and fires
the work function a second time — the claim's "a duplicate call from a parent
id that has already reported must not cause a second firing" fails. -/
theorem c1_counterexample :
    ((runCalls ⟨[0, 1], []⟩
        [(0, JSVal.null), (1, JSVal.null), (0, JSVal.null)]).2).length = 2 := rfl

/-- C2: a vertex whose registered parent set is exactly `{p}` dispatches, upon
`updateParentStatus(p, v)`, its work function with the very value `v` the
parent reported — no wrapping, no merging (the `parents.size === 1` branch
passes `value` through). -/
theorem c2_single_parent_passthrough (p : Nat) (st : List (Nat × JSVal)) (v : JSVal) :
    (updateParentStatus ⟨[p], st⟩ p v).2 = some v :=
  upd_single ⟨[p], st⟩ p v rfl

/-- C3: a vertex with `N >= 2` registered parents, receiving a duplicate-free
report sequence of length `N`, fires exactly once, with the shallow union
`Object.assign({}, ...)` of the reported records in arrival order when all
reports are plain records, and with the ordered array of the raw reports in
arrival order otherwise; in the merged object, a key's value is the one from
the latest-arriving report that binds it (lookup in the reversed
concatenation). -/
theorem c3_multi_parent_merge (ps : List Nat) (calls : List (Nat × JSVal))
    (h2 : 2 ≤ ps.length) (hnd : (calls.map Prod.fst).Nodup)
    (hlen : calls.length = ps.length) :
    ((runCalls ⟨ps, []⟩ calls).2 =
      if ((calls.map Prod.snd).all isPlainObject) then
        [JSVal.obj (objAssign ((calls.map Prod.snd).map objFieldsD))]
      else [JSVal.arr (calls.map Prod.snd)])
    ∧ (∀ key, getKey (objAssign ((calls.map Prod.snd).map objFieldsD)) key
        = getKey ((calls.map Prod.snd).map objFieldsD).flatten.reverse key) := by
  constructor
  · have hne : calls ≠ [] := by
      intro hnil; subst hnil; simp at hlen; omega
    have h := runCalls_fresh_full calls ⟨ps, []⟩ h2 hnd (by simp) (by simp [hlen]) hne
    rw [h]
    simp
  · intro key
    exact getKey_objAssign ((calls.map Prod.snd).map objFieldsD) key

theorem c3_multi_parent_merge_witness :
    (runCalls ⟨[0, 1], []⟩
        [(0, JSVal.obj [("a", JSVal.num 1), ("x", JSVal.num 9)]),
         (1, JSVal.obj [("b", JSVal.num 2), ("x", JSVal.num 5)])]).2
      = [JSVal.obj [("a", JSVal.num 1), ("x", JSVal.num 5), ("b", JSVal.num 2)]] := by
  have h := (c3_multi_parent_merge [0, 1]
    [(0, JSVal.obj [("a", JSVal.num 1), ("x", JSVal.num 9)]),
     (1, JSVal.obj [("b", JSVal.num 2), ("x", JSVal.num 5)])]
    (by decide) (by decide) rfl).1
  rw [h]
  rfl

/-- C9: an `updateParentStatus` call whose reporting key is a registered
parent preserves the invariant that the recorded statuses are keyed by
distinct registered parents — in particular `$parentStatuses.size` never
exceeds `parents.size`. -/
theorem c9_statuses_card_bound (s : VState) (k : Nat) (v : JSVal)
    (hsub : ∀ x ∈ s.statuses.map Prod.fst, x ∈ s.parents)
    (hsnd : (s.statuses.map Prod.fst).Nodup)
    (hk : k ∈ s.parents) :
    ((updateParentStatus s k v).1.statuses.length ≤ s.parents.length)
    ∧ (∀ x ∈ (updateParentStatus s k v).1.statuses.map Prod.fst, x ∈ s.parents)
    ∧ ((updateParentStatus s k v).1.statuses.map Prod.fst).Nodup := by
  rw [upd_fst]
  have hkeys := keys_mapSet s.statuses k v
  have hsub' : ∀ x ∈ (mapSet s.statuses k v).map Prod.fst, x ∈ s.parents := by
    rw [hkeys]
    by_cases hmem : k ∈ s.statuses.map Prod.fst
    · simpa [hmem] using hsub
    · simp only [hmem, if_false]
      intro x hx
      rcases List.mem_append.mp hx with hx | hx
      · exact hsub x hx
      · simp at hx; subst hx; exact hk
  have hnd' : ((mapSet s.statuses k v).map Prod.fst).Nodup := nodup_keys_mapSet k v hsnd
  refine ⟨?_, hsub', hnd'⟩
  have hsp := List.Subperm.length_le (List.subperm_of_subset hnd' hsub')
  simpa using hsp

theorem c9_statuses_card_bound_witness :
    ((updateParentStatus ⟨[3, 5], [(3, JSVal.null)]⟩ 3 (JSVal.num 1)).1.statuses.length ≤ 2)
    ∧ (∀ x ∈ (updateParentStatus ⟨[3, 5], [(3, JSVal.null)]⟩ 3
        (JSVal.num 1)).1.statuses.map Prod.fst, x ∈ [3, 5])
    ∧ ((updateParentStatus ⟨[3, 5], [(3, JSVal.null)]⟩ 3
        (JSVal.num 1)).1.statuses.map Prod.fst).Nodup :=
  c9_statuses_card_bound ⟨[3, 5], [(3, JSVal.null)]⟩ 3 (JSVal.num 1)
    (by decide) (by decide) (by decide)

/-! ## Depth-first search correctness -/

theorem loopChildren_subset
    {step : Nat → List Nat → Option (Bool × List Nat)}
    (hstep : ∀ c seen b S, step c seen = some (b, S) → seen ⊆ S) :
    ∀ cs seen b S, loopChildren step cs seen = some (b, S) → seen ⊆ S := by
  intro cs
  induction cs with
  | nil =>
    intro seen b S h
    simp only [loopChildren, Option.some.injEq, Prod.mk.injEq] at h
    exact h.2 ▸ fun x hx => hx
  | cons c rest ih =>
    intro seen b S h
    simp only [loopChildren] at h
    split at h
    · simp at h
    · rename_i S₁ heq
      simp only [Option.some.injEq, Prod.mk.injEq] at h
      exact h.2 ▸ hstep c seen true S₁ heq
    · rename_i S₁ heq
      exact fun x hx => ih S₁ b S h (hstep c seen false S₁ heq hx)

theorem hasPathAux_subset (g : Graph) (tgt : Nat) :
    ∀ fuel a seen b S, hasPathAux g tgt fuel a seen = some (b, S) → seen ⊆ S := by
  intro fuel
  induction fuel with
  | zero => intro a seen b S h; simp [hasPathAux] at h
  | succ fuel ih =>
    intro a seen b S h
    simp only [hasPathAux] at h
    by_cases h1 : a = tgt
    · rw [if_pos h1] at h
      simp only [Option.some.injEq, Prod.mk.injEq] at h
      exact h.2 ▸ fun x hx => hx
    · rw [if_neg h1] at h
      by_cases h2 : a ∈ seen
      · rw [if_pos h2] at h
        simp only [Option.some.injEq, Prod.mk.injEq] at h
        exact h.2 ▸ fun x hx => hx
      · rw [if_neg h2] at h
        have hsub := loopChildren_subset (fun c s b' S' hc => ih c s b' S' hc) _ _ _ _ h
        exact fun x hx => hsub (List.mem_cons_of_mem a hx)

theorem loopChildren_closed (g : Graph) (tgt : Nat)
    {step : Nat → List Nat → Option (Bool × List Nat)}
    (hsub : ∀ c seen b S, step c seen = some (b, S) → seen ⊆ S)
    (hstep : ∀ c seen S, step c seen = some (false, S) →
      c ∈ S ∧ (tgt ∉ seen → tgt ∉ S) ∧ ClosedFrom g seen S) :
    ∀ cs seen S, loopChildren step cs seen = some (false, S) →
      seen ⊆ S ∧ (∀ c ∈ cs, c ∈ S) ∧ (tgt ∉ seen → tgt ∉ S) ∧ ClosedFrom g seen S := by
  intro cs
  induction cs with
  | nil =>
    intro seen S h
    simp only [loopChildren, Option.some.injEq, Prod.mk.injEq] at h
    refine h.2 ▸ ⟨fun x hx => hx, by simp, fun ht => ht, ?_⟩
    intro x hx hnx y _
    exact absurd hx hnx
  | cons c rest ih =>
    intro seen S h
    simp only [loopChildren] at h
    split at h
    · simp at h
    · simp at h
    · rename_i S₁ heq
      obtain ⟨hcS₁, htgt₁, hcl₁⟩ := hstep c seen S₁ heq
      have hsub₁ : seen ⊆ S₁ := hsub c seen false S₁ heq
      obtain ⟨hsub₂, hrest, htgt₂, hcl₂⟩ := ih S₁ S h
      refine ⟨fun x hx => hsub₂ (hsub₁ hx), ?_, ?_, ?_⟩
      · intro x hx
        rcases List.mem_cons.mp hx with rfl | hx
        · exact hsub₂ hcS₁
        · exact hrest x hx
      · exact fun ht => htgt₂ (htgt₁ ht)
      · intro x hxS hxseen y hy
        by_cases hx₁ : x ∈ S₁
        · exact hsub₂ (hcl₁ x hx₁ hxseen y hy)
        · exact hcl₂ x hxS hx₁ y hy

theorem hasPathAux_closed (g : Graph) (tgt : Nat) :
    ∀ fuel a seen S, hasPathAux g tgt fuel a seen = some (false, S) →
      a ∈ S ∧ (tgt ∉ seen → tgt ∉ S) ∧ ClosedFrom g seen S := by
  intro fuel
  induction fuel with
  | zero => intro a seen S h; simp [hasPathAux] at h
  | succ fuel ih =>
    intro a seen S h
    simp only [hasPathAux] at h
    by_cases h1 : a = tgt
    · rw [if_pos h1] at h; simp at h
    · rw [if_neg h1] at h
      by_cases h2 : a ∈ seen
      · rw [if_pos h2] at h
        simp only [Option.some.injEq, Prod.mk.injEq] at h
        refine h.2 ▸ ⟨h2, fun ht => ht, ?_⟩
        intro x hx hnx y _
        exact absurd hx hnx
      · rw [if_neg h2] at h
        obtain ⟨hsub, hmem, htgt, hcl⟩ :=
          loopChildren_closed g tgt
            (fun c s b S' hc => hasPathAux_subset g tgt fuel c s b S' hc)
            (fun c s S' hc => ih c s S' hc) _ _ _ h
        refine ⟨hsub (List.mem_cons_self a seen), ?_, ?_⟩
        · intro hts
          apply htgt
          intro hmem2
          rcases List.mem_cons.mp hmem2 with he | hm
          · exact h1 he.symm
          · exact hts hm
        · intro x hxS hxseen y hy
          by_cases hxa : x = a
          · subst hxa; exact hmem y hy
          · refine hcl x hxS ?_ y hy
            intro hmem2
            rcases List.mem_cons.mp hmem2 with he | hm
            · exact hxa he
            · exact hxseen hm

theorem mem_closed_of_reaches (g : Graph) {S : List Nat}
    (hcl : ClosedFrom g [] S) {a b : Nat}
    (hr : Relation.ReflTransGen (Edge g) a b) : a ∈ S → b ∈ S := by
  induction hr using Relation.ReflTransGen.head_induction_on with
  | refl => exact fun hb => hb
  | head hab _ ih => exact fun ha => ih (hcl _ ha (by simp) _ hab)

theorem hasPath_false_not_reaches (g : Graph) (a b : Nat)
    (h : hasPath g a b = false) : ¬ Reaches g a b := by
  intro hr
  unfold hasPath at h
  rcases hl : hasPathAux g b (g.verts.length + 1) a [] with _ | ⟨found, S⟩
  · rw [hl] at h; simp at h
  · rw [hl] at h
    cases found
    · obtain ⟨haS, htgt, hcl⟩ := hasPathAux_closed g b _ a [] S hl
      exact htgt (by simp) (mem_closed_of_reaches g hcl hr haS)
    · simp at h

theorem loopChildren_sound (g : Graph) (tgt : Nat)
    {step : Nat → List Nat → Option (Bool × List Nat)}
    (hstep : ∀ c seen S, step c seen = some (true, S) → Reaches g c tgt) :
    ∀ cs seen S, loopChildren step cs seen = some (true, S) →
      ∃ c ∈ cs, Reaches g c tgt := by
  intro cs
  induction cs with
  | nil => intro seen S h; simp [loopChildren] at h
  | cons c rest ih =>
    intro seen S h
    simp only [loopChildren] at h
    split at h
    · simp at h
    · rename_i S₁ heq
      exact ⟨c, by simp, hstep c seen S₁ heq⟩
    · rename_i S₁ heq
      obtain ⟨c', hc', hrch⟩ := ih S₁ S h
      exact ⟨c', by simp [hc'], hrch⟩

theorem hasPathAux_sound (g : Graph) (tgt : Nat) :
    ∀ fuel a seen S, hasPathAux g tgt fuel a seen = some (true, S) →
      Reaches g a tgt := by
  intro fuel
  induction fuel with
  | zero => intro a seen S h; simp [hasPathAux] at h
  | succ fuel ih =>
    intro a seen S h
    simp only [hasPathAux] at h
    by_cases h1 : a = tgt
    · subst h1; exact Relation.ReflTransGen.refl
    · rw [if_neg h1] at h
      by_cases h2 : a ∈ seen
      · rw [if_pos h2] at h; simp at h
      · rw [if_neg h2] at h
        obtain ⟨c, hc, hrch⟩ :=
          loopChildren_sound g tgt (fun c s S' hcall => ih c s S' hcall) _ _ _ h
        exact Relation.ReflTransGen.head hc hrch

theorem nodup_bounded_length {s : List Nat} {n : Nat}
    (hnd : s.Nodup) (hbd : ∀ x ∈ s, x < n) : s.length ≤ n := by
  have hs : s ⊆ List.range n := fun x hx => List.mem_range.mpr (hbd x hx)
  have := List.Subperm.length_le (List.subperm_of_subset hnd hs)
  simpa using this

theorem loopChildren_nodup_bounded (n : Nat)
    {step : Nat → List Nat → Option (Bool × List Nat)}
    (hstep : ∀ c seen b S, step c seen = some (b, S) →
      seen.Nodup → (∀ x ∈ seen, x < n) → c < n →
      S.Nodup ∧ (∀ x ∈ S, x < n)) :
    ∀ cs seen b S, loopChildren step cs seen = some (b, S) →
      seen.Nodup → (∀ x ∈ seen, x < n) → (∀ c ∈ cs, c < n) →
      S.Nodup ∧ (∀ x ∈ S, x < n) := by
  intro cs
  induction cs with
  | nil =>
    intro seen b S h hnd hbd _
    simp only [loopChildren, Option.some.injEq, Prod.mk.injEq] at h
    exact h.2 ▸ ⟨hnd, hbd⟩
  | cons c rest ih =>
    intro seen b S h hnd hbd hcs
    simp only [loopChildren] at h
    split at h
    · simp at h
    · rename_i S₁ heq
      simp only [Option.some.injEq, Prod.mk.injEq] at h
      exact h.2 ▸ hstep c seen true S₁ heq hnd hbd (hcs c (by simp))
    · rename_i S₁ heq
      obtain ⟨hnd₁, hbd₁⟩ := hstep c seen false S₁ heq hnd hbd (hcs c (by simp))
      exact ih S₁ b S h hnd₁ hbd₁ (fun c' hc' => hcs c' (by simp [hc']))

theorem hasPathAux_nodup_bounded (g : Graph) (tgt : Nat)
    (hball : ∀ i, ∀ x ∈ (getV g i).children, x < g.verts.length) :
    ∀ fuel a seen b S, hasPathAux g tgt fuel a seen = some (b, S) →
      seen.Nodup → (∀ x ∈ seen, x < g.verts.length) → a < g.verts.length →
      S.Nodup ∧ (∀ x ∈ S, x < g.verts.length) := by
  intro fuel
  induction fuel with
  | zero => intro a seen b S h _ _ _; simp [hasPathAux] at h
  | succ fuel ih =>
    intro a seen b S h hnd hbd ha
    simp only [hasPathAux] at h
    by_cases h1 : a = tgt
    · rw [if_pos h1] at h
      simp only [Option.some.injEq, Prod.mk.injEq] at h
      exact h.2 ▸ ⟨hnd, hbd⟩
    · rw [if_neg h1] at h
      by_cases h2 : a ∈ seen
      · rw [if_pos h2] at h
        simp only [Option.some.injEq, Prod.mk.injEq] at h
        exact h.2 ▸ ⟨hnd, hbd⟩
      · rw [if_neg h2] at h
        have hnd' : (a :: seen).Nodup := List.nodup_cons.mpr ⟨h2, hnd⟩
        have hbd' : ∀ x ∈ a :: seen, x < g.verts.length := by
          intro x hx
          rcases List.mem_cons.mp hx with rfl | hx
          · exact ha
          · exact hbd x hx
        exact loopChildren_nodup_bounded g.verts.length
          (fun c s b' S' hcall => ih c s b' S' hcall) _ _ _ _ h hnd' hbd' (hball a)

theorem loopChildren_isSome (n fuelF : Nat)
    {step : Nat → List Nat → Option (Bool × List Nat)}
    (hsub : ∀ c seen b S, step c seen = some (b, S) → seen ⊆ S)
    (hpres : ∀ c seen b S, step c seen = some (b, S) →
      seen.Nodup → (∀ x ∈ seen, x < n) → c < n → S.Nodup ∧ (∀ x ∈ S, x < n))
    (hsome : ∀ c seen, seen.Nodup → (∀ x ∈ seen, x < n) → c < n →
      n + 1 ≤ fuelF + seen.length → (step c seen).isSome) :
    ∀ cs seen, seen.Nodup → (∀ x ∈ seen, x < n) → (∀ c ∈ cs, c < n) →
      n + 1 ≤ fuelF + seen.length → (loopChildren step cs seen).isSome := by
  intro cs
  induction cs with
  | nil => intro seen _ _ _ _; simp [loopChildren]
  | cons c rest ih =>
    intro seen hnd hbd hcs hlen
    have hs := hsome c seen hnd hbd (hcs c (by simp)) hlen
    rcases hval : step c seen with _ | ⟨b, S₁⟩
    · rw [hval] at hs; simp at hs
    · simp only [loopChildren]
      rw [hval]
      cases b
      · obtain ⟨hnd₁, hbd₁⟩ := hpres c seen false S₁ hval hnd hbd (hcs c (by simp))
        have hsubs : seen ⊆ S₁ := hsub c seen false S₁ hval
        have hle : seen.length ≤ S₁.length :=
          List.Subperm.length_le (List.subperm_of_subset hnd hsubs)
        exact ih S₁ hnd₁ hbd₁ (fun c' hc' => hcs c' (by simp [hc'])) (by omega)
      · simp

theorem hasPathAux_isSome (g : Graph) (tgt : Nat)
    (hball : ∀ i, ∀ x ∈ (getV g i).children, x < g.verts.length) :
    ∀ fuel a seen, seen.Nodup → (∀ x ∈ seen, x < g.verts.length) →
      a < g.verts.length → g.verts.length + 1 ≤ fuel + seen.length →
      (hasPathAux g tgt fuel a seen).isSome := by
  intro fuel
  induction fuel with
  | zero =>
    intro a seen hnd hbd _ hlen
    exfalso
    have := nodup_bounded_length hnd hbd
    omega
  | succ fuel ih =>
    intro a seen hnd hbd ha hlen
    simp only [hasPathAux]
    by_cases h1 : a = tgt
    · rw [if_pos h1]; simp
    · rw [if_neg h1]
      by_cases h2 : a ∈ seen
      · rw [if_pos h2]; simp
      · rw [if_neg h2]
        have hnd' : (a :: seen).Nodup := List.nodup_cons.mpr ⟨h2, hnd⟩
        have hbd' : ∀ x ∈ a :: seen, x < g.verts.length := by
          intro x hx
          rcases List.mem_cons.mp hx with rfl | hx
          · exact ha
          · exact hbd x hx
        exact loopChildren_isSome g.verts.length fuel
          (fun c s b S' hc => hasPathAux_subset g tgt fuel c s b S' hc)
          (fun c s b S' hc => hasPathAux_nodup_bounded g tgt hball fuel c s b S' hc)
          (fun c s hn hb hc hl => ih c s hn hb hc hl)
          _ _ hnd' hbd' (hball a) (by simp at hlen ⊢; omega)

theorem bounded_all (g : Graph) (hb : Bounded g) :
    ∀ i, ∀ x ∈ (getV g i).children, x < g.verts.length := by
  intro i x hx
  by_cases hi : i < g.verts.length
  · exact hb i hi x hx
  · exfalso
    have hdef : getV g i = ⟨[], []⟩ := by
      unfold getV
      rw [List.getD_eq_getElem?_getD, List.getElem?_eq_none (by omega)]
      rfl
    rw [hdef] at hx
    simp at hx

/-- The DFS cycle guard decides reachability: with all stored children
identities in range and a real starting vertex, `_hasPath(a, b)` returns true
exactly when `b` is reachable from `a` along children edges. -/
theorem hasPath_iff_reaches (g : Graph) (a b : Nat)
    (hb : Bounded g) (ha : a < g.verts.length) :
    hasPath g a b = true ↔ Reaches g a b := by
  constructor
  · intro h
    have hs := hasPathAux_isSome g b (bounded_all g hb) (g.verts.length + 1) a []
      (by simp) (by simp) ha (by simp)
    rcases hl : hasPathAux g b (g.verts.length + 1) a [] with _ | ⟨found, S⟩
    · rw [hl] at hs; simp at hs
    · cases found
      · have hfalse : hasPath g a b = false := by
          unfold hasPath; rw [hl]
        rw [hfalse] at h; simp at h
      · exact hasPathAux_sound g b _ a [] S hl
  · intro hr
    by_contra hfalse
    have hf : hasPath g a b = false := by
      cases hv : hasPath g a b
      · rfl
      · exact absurd hv hfalse
    exact hasPath_false_not_reaches g a b hf hr

/-! ## addChild and acyclicity -/

theorem addChild_guards_of_ok (g : Graph) (p c : Nat)
    (h : (addChild g p c).2 = none) :
    p ≠ c ∧ c ∉ (getV g p).children ∧ hasPath g c p = false := by
  simp only [addChild] at h
  split at h
  · simp at h
  · split at h
    · simp at h
    · split at h
      · simp at h
      · rename_i h1 h2 h3
        exact ⟨h1, h2, by simpa using h3⟩

theorem addChild_ok_graph (g : Graph) (p c : Nat)
    (h1 : ¬ p = c) (h2 : c ∉ (getV g p).children) (h3 : ¬ hasPath g c p = true) :
    addChild g p c =
      (setV (setV g p ⟨(getV g p).children ++ [c], (getV g p).parents⟩) c
        ⟨(getV g c).children,
          if p ∈ (getV g c).parents then (getV g c).parents
          else (getV g c).parents ++ [p]⟩, none) := by
  simp only [addChild]
  rw [if_neg h1, if_neg h2, if_neg h3]

theorem getD_set_verts {α : Type} (l : List α) (i j : Nat) (v d : α) :
    (l.set i v).getD j d = if i = j ∧ i < l.length then v else l.getD j d := by
  by_cases h : i = j ∧ i < l.length
  · obtain ⟨rfl, hlt⟩ := h
    simp [List.getD, List.getElem?_set_eq_of_lt v hlt, hlt]
  · rw [if_neg h]
    by_cases hij : i = j
    · subst hij
      have hge : l.length ≤ i := by
        rcases Nat.lt_or_ge i l.length with hlt | hge
        · exact absurd ⟨rfl, hlt⟩ h
        · exact hge
      have hge2 : (l.set i v).length ≤ i := by simpa using hge
      simp [List.getD, List.getElem?_eq_none hge, List.getElem?_eq_none hge2]
    · simp [List.getD, List.getElem?_set_ne hij]

theorem getV_setV (g : Graph) (i j : Nat) (v : GVertex) :
    getV (setV g i v) j = if i = j ∧ i < g.verts.length then v else getV g j := by
  simp only [getV, setV]
  exact getD_set_verts g.verts i j v _

theorem length_setV (g : Graph) (i : Nat) (v : GVertex) :
    (setV g i v).verts.length = g.verts.length := by
  simp [setV]

theorem addChild_ok_edge_cases (g : Graph) (p c : Nat)
    (h : (addChild g p c).2 = none) :
    ∀ x y, Edge (addChild g p c).1 x y → Edge g x y ∨ (x = p ∧ y = c) := by
  obtain ⟨h1, h2, h3⟩ := addChild_guards_of_ok g p c h
  rw [addChild_ok_graph g p c h1 h2 (by simp [h3])]
  intro x y he
  simp only [Edge] at he ⊢
  rw [getV_setV] at he
  split at he
  · rename_i hcx
    dsimp only at he
    exact Or.inl (by rw [← hcx.1]; exact he)
  · rw [getV_setV] at he
    split at he
    · rename_i hpx
      dsimp only at he
      rcases List.mem_append.mp he with hold | hnew
      · exact Or.inl (by rw [← hpx.1]; exact hold)
      · simp at hnew
        exact Or.inr ⟨hpx.1.symm, hnew⟩
    · exact Or.inl he

theorem reflTransGen_decompose_new_edge {R R' : Nat → Nat → Prop} {p c : Nat}
    (h : ∀ x y, R' x y → R x y ∨ (x = p ∧ y = c)) :
    ∀ x y, Relation.ReflTransGen R' x y →
      Relation.ReflTransGen R x y ∨
        (Relation.ReflTransGen R x p ∧ Relation.ReflTransGen R c y) := by
  intro x y hxy
  induction hxy with
  | refl => exact Or.inl Relation.ReflTransGen.refl
  | tail _ hyz ih =>
    rcases h _ _ hyz with hR | ⟨rfl, rfl⟩
    · rcases ih with hxy' | ⟨hxp, hcy⟩
      · exact Or.inl (hxy'.tail hR)
      · exact Or.inr ⟨hxp, hcy.tail hR⟩
    · rcases ih with hxp | ⟨hxp, _⟩
      · exact Or.inr ⟨hxp, Relation.ReflTransGen.refl⟩
      · exact Or.inr ⟨hxp, Relation.ReflTransGen.refl⟩

theorem acyclic_of_new_edge {g g' : Graph} {p c : Nat}
    (hedge : ∀ x y, Edge g' x y → Edge g x y ∨ (x = p ∧ y = c))
    (hacy : Acyclic g) (hnr : ¬ Reaches g c p) : Acyclic g' := by
  intro v hv
  obtain ⟨w, hvw, hwv⟩ := (Relation.TransGen.head'_iff).mp hv
  rcases hedge v w hvw with hR | ⟨hvp, hwc⟩
  · rcases reflTransGen_decompose_new_edge hedge w v hwv with hwv' | ⟨hwp, hcv⟩
    · exact hacy v (Relation.TransGen.head' hR hwv')
    · exact hnr (hcv.trans (Relation.ReflTransGen.head hR hwp))
  · rcases reflTransGen_decompose_new_edge hedge w v hwv with hcp | ⟨hcp, _⟩
    · refine hnr ?_
      rw [← hwc, ← hvp]
      exact hcp
    · refine hnr ?_
      rw [← hwc]
      exact hcp

theorem addChild_preserves_acyclic (g : Graph) (p c : Nat)
    (hacy : Acyclic g) (h : (addChild g p c).2 = none) :
    Acyclic (addChild g p c).1 := by
  obtain ⟨_, _, h3⟩ := addChild_guards_of_ok g p c h
  exact acyclic_of_new_edge (addChild_ok_edge_cases g p c h) hacy
    (hasPath_false_not_reaches g c p h3)

theorem initGraph_acyclic (n : Nat) : Acyclic (initGraph n) := by
  intro v hv
  obtain ⟨w, hvw, _⟩ := (Relation.TransGen.head'_iff).mp hv
  have hchil : (getV (initGraph n) v).children = [] := by
    simp only [getV, initGraph]
    rcases Nat.lt_or_ge v n with hlt | hge
    · rw [List.getD_eq_getElem?_getD, List.getElem?_replicate_of_lt hlt]
      rfl
    · rw [List.getD_eq_getElem?_getD, List.getElem?_eq_none (by simpa using hge)]
      rfl
  rw [Edge, hchil] at hvw
  simp at hvw

theorem runInserts_acyclic :
    ∀ (reqs : List (Nat × Nat)) (g : Graph), Acyclic g →
      (runInserts g reqs).2 = true → Acyclic (runInserts g reqs).1 := by
  intro reqs
  induction reqs with
  | nil => intro g hacy _; exact hacy
  | cons pc rest ih =>
    intro g hacy hok
    obtain ⟨p, c⟩ := pc
    simp only [runInserts, Bool.and_eq_true, Option.isNone_iff_eq_none] at hok ⊢
    exact ih (addChild g p c).1 (addChild_preserves_acyclic g p c hacy hok.1) hok.2

/-- C4: starting from any number of freshly created vertices, a sequence of
`addChild` calls in which every call succeeds (none raises) leaves the graph
globally acyclic: after the whole sequence no vertex has a nonempty path to
itself along children edges. The cycle guard `_hasPath` (run before each edge
is committed) is what preserves the invariant. -/
theorem c4_acyclicity_invariant (n : Nat) (reqs : List (Nat × Nat))
    (hok : (runInserts (initGraph n) reqs).2 = true) :
    Acyclic (runInserts (initGraph n) reqs).1 :=
  runInserts_acyclic reqs (initGraph n) (initGraph_acyclic n) hok

theorem c4_acyclicity_invariant_witness :
    (runInserts (initGraph 3) [(0, 1), (1, 2), (0, 2)]).2 = true
    ∧ Acyclic (runInserts (initGraph 3) [(0, 1), (1, 2), (0, 2)]).1 :=
  ⟨by decide, c4_acyclicity_invariant 3 [(0, 1), (1, 2), (0, 2)] (by decide)⟩

/-- C5: `addChild(parent, child)` fails in exactly three cases, with the
guards tested in source order — `parent === child` (self reference), the
child's key already among the parent's `$children` (duplicate edge), the child
already reaching the parent along children edges (cycle) — and every failure
returns with both vertices' edge state untouched; otherwise the call succeeds,
appending the child's key to the parent's `$children` and adding the parent's
key to the child's `parents` set, touching nothing else. -/
theorem c5_addChild_guards (g : Graph) (p c : Nat)
    (hb : Bounded g) (hp : p < g.verts.length) (hc : c < g.verts.length) :
    (addChild g p c = (g, some VError.selfRef) ↔ p = c)
    ∧ (addChild g p c = (g, some VError.duplicateEdge) ↔
        p ≠ c ∧ c ∈ (getV g p).children)
    ∧ (addChild g p c = (g, some VError.cycle) ↔
        p ≠ c ∧ c ∉ (getV g p).children ∧ Reaches g c p)
    ∧ (∀ e, (addChild g p c).2 = some e → (addChild g p c).1 = g)
    ∧ ((addChild g p c).2 = none →
        (getV (addChild g p c).1 p).children = (getV g p).children ++ [c]
        ∧ (getV (addChild g p c).1 p).parents = (getV g p).parents
        ∧ (getV (addChild g p c).1 c).children = (getV g c).children
        ∧ (getV (addChild g p c).1 c).parents =
            (if p ∈ (getV g c).parents then (getV g c).parents
             else (getV g c).parents ++ [p])
        ∧ (∀ x, x ≠ p → x ≠ c → getV (addChild g p c).1 x = getV g x)) := by
  have hreach := hasPath_iff_reaches g c p hb hc
  by_cases h1 : p = c
  · have heq : addChild g p c = (g, some VError.selfRef) := by
      simp only [addChild]; rw [if_pos h1]
    refine ⟨⟨fun _ => h1, fun _ => heq⟩, ?_, ?_, ?_, ?_⟩
    · exact ⟨fun hco => by rw [heq] at hco; simpa using congrArg Prod.snd hco,
        fun hr => absurd h1 hr.1⟩
    · exact ⟨fun hco => by rw [heq] at hco; simpa using congrArg Prod.snd hco,
        fun hr => absurd h1 hr.1⟩
    · intro e _; rw [heq]
    · intro hn; rw [heq] at hn; simp at hn
  · by_cases h2 : c ∈ (getV g p).children
    · have heq : addChild g p c = (g, some VError.duplicateEdge) := by
        simp only [addChild]; rw [if_neg h1, if_pos h2]
      refine ⟨?_, ⟨fun _ => ⟨h1, h2⟩, fun _ => heq⟩, ?_, ?_, ?_⟩
      · exact ⟨fun hco => by rw [heq] at hco; simpa using congrArg Prod.snd hco,
          fun hpc => absurd hpc h1⟩
      · exact ⟨fun hco => by rw [heq] at hco; simpa using congrArg Prod.snd hco,
          fun hr => absurd h2 hr.2.1⟩
      · intro e _; rw [heq]
      · intro hn; rw [heq] at hn; simp at hn
    · by_cases h3 : hasPath g c p = true
      · have heq : addChild g p c = (g, some VError.cycle) := by
          simp only [addChild]; rw [if_neg h1, if_neg h2, if_pos h3]
        refine ⟨?_, ?_, ⟨fun _ => ⟨h1, h2, hreach.mp h3⟩, fun _ => heq⟩, ?_, ?_⟩
        · exact ⟨fun hco => by rw [heq] at hco; simpa using congrArg Prod.snd hco,
            fun hpc => absurd hpc h1⟩
        · exact ⟨fun hco => by rw [heq] at hco; simpa using congrArg Prod.snd hco,
            fun hr => absurd hr.2 h2⟩
        · intro e _; rw [heq]
        · intro hn; rw [heq] at hn; simp at hn
      · have hnr : ¬ Reaches g c p := fun hr => h3 (hreach.mpr hr)
        have heq := addChild_ok_graph g p c h1 h2 h3
        have hcne : ¬ (c = p) := fun hcp => h1 hcp.symm
        refine ⟨?_, ?_, ?_, ?_, ?_⟩
        · exact ⟨fun hco => by rw [heq] at hco; simpa using congrArg Prod.snd hco,
            fun hpc => absurd hpc h1⟩
        · exact ⟨fun hco => by rw [heq] at hco; simpa using congrArg Prod.snd hco,
            fun hr => absurd hr.2 h2⟩
        · exact ⟨fun hco => by rw [heq] at hco; simpa using congrArg Prod.snd hco,
            fun hr => absurd hr.2.2 hnr⟩
        · intro e he; rw [heq] at he; simp at he
        · intro _
          rw [heq]
          dsimp only
          refine ⟨?_, ?_, ?_, ?_, ?_⟩
          · rw [getV_setV, if_neg (fun hco => hcne hco.1), getV_setV,
              if_pos ⟨rfl, hp⟩]
          · rw [getV_setV, if_neg (fun hco => hcne hco.1), getV_setV,
              if_pos ⟨rfl, hp⟩]
          · rw [getV_setV, if_pos ⟨rfl, by rw [length_setV]; exact hc⟩]
          · rw [getV_setV, if_pos ⟨rfl, by rw [length_setV]; exact hc⟩]
          · intro x hxp hxc
            rw [getV_setV, if_neg (fun hco => hxc hco.1.symm), getV_setV,
              if_neg (fun hco => hxp hco.1.symm)]

theorem c5_addChild_guards_witness :
    addChild chainGraph 2 0 = (chainGraph, some VError.cycle) :=
  (c5_addChild_guards chainGraph 2 0 (by decide) (by decide) (by decide)).2.2.1.mpr
    ⟨by decide, by decide,
      Relation.ReflTransGen.head (show Edge chainGraph 0 1 by unfold Edge; decide)
        (Relation.ReflTransGen.head (show Edge chainGraph 1 2 by unfold Edge; decide)
          Relation.ReflTransGen.refl)⟩

/-! ## getChildren snapshots -/

/-- C8: `getChildren()` returns `new Set(this.$children.values())` — a freshly
allocated heap object holding a copy of the current children. A later
`addChild` mutates the vertex's internal `$children` store in place, but the
previously returned snapshot is a different cell and still holds the
pre-mutation contents. -/
theorem c8_getChildren_snapshot (h : ChildHeap) (internalRef c : Nat)
    (hv : internalRef < h.cells.length) :
    ((getChildren h internalRef).1 ≠ internalRef)
    ∧ heapGet (addChildStore (getChildren h internalRef).2 internalRef c)
        (getChildren h internalRef).1 = heapGet h internalRef
    ∧ heapGet (addChildStore (getChildren h internalRef).2 internalRef c)
        internalRef = heapGet h internalRef ++ [c] := by
  refine ⟨?_, ?_, ?_⟩
  · simp only [getChildren]
    omega
  · simp only [getChildren, addChildStore, heapGet]
    rw [getD_set_verts, if_neg (fun hco => by omega)]
    rw [List.getD_eq_getElem?_getD, List.getElem?_concat_length]
    rfl
  · simp only [getChildren, addChildStore, heapGet]
    have hv' : internalRef < (h.cells ++ [h.cells.getD internalRef []]).length := by
      simp; omega
    rw [getD_set_verts, if_pos ⟨rfl, hv'⟩]
    rw [List.getD_eq_getElem?_getD, List.getElem?_append_left hv,
      ← List.getD_eq_getElem?_getD]

theorem c8_getChildren_snapshot_witness :
    ((getChildren ⟨[[5]]⟩ 0).1 ≠ 0)
    ∧ heapGet (addChildStore (getChildren ⟨[[5]]⟩ 0).2 0 7) (getChildren ⟨[[5]]⟩ 0).1
        = heapGet ⟨[[5]]⟩ 0
    ∧ heapGet (addChildStore (getChildren ⟨[[5]]⟩ 0).2 0 7) 0
        = heapGet ⟨[[5]]⟩ 0 ++ [7] :=
  c8_getChildren_snapshot ⟨[[5]]⟩ 0 7 (by decide)

/-! ## Execution-wave invariants -/

theorem exists_getElem?_of_mem {α : Type} {l : List α} {a : α} (h : a ∈ l) :
    ∃ i, l[i]? = some a ∧ i < l.length := by
  obtain ⟨i, hi, he⟩ := List.getElem_of_mem h
  exact ⟨i, by rw [List.getElem?_eq_getElem hi]; exact congrArg some he, hi⟩

theorem getElem?_append_of_lt {α : Type} {l : List α} (t : List α) {i : Nat} {a : α}
    (h : l[i]? = some a) : (l ++ t)[i]? = some a := by
  rw [List.getElem?_append_left (List.getElem?_eq_some.mp h).1]
  exact h

theorem init_inv (G : ExecGraph) (root : Nat) (input : JSVal) :
    EInv G root input (initState root input) := by
  refine ⟨rfl, ?_, ?_, ?_, ?_, ?_, ?_, ?_, ?_⟩
  · intro i c inp h
    left
    rcases i with _ | i
    · rfl
    · simp [initState] at h
  · intro c p val h; simp [initState] at h
  · intro c p h; simp [initState] at h
  · intro c; simp [initState]
  · intro v inp h
    simp only [initState, List.mem_singleton] at h
    have h1 : v = root := congrArg Prod.fst h
    have h2 : inp = input := congrArg Prod.snd h
    rw [h1, h2]
    simp [initState]
  · intro v r h; simp [initState] at h
  · intro p c r h; simp [initState] at h
  · intro v r h; simp [initState] at h

theorem einv_extend (G : ExecGraph) (root : Nat) (input : JSVal) (s : EState)
    (running' : List (Nat × JSVal)) (ev : Event)
    (hinv : EInv G root input s)
    (hrun : running' ⊆ s.running)
    (hstart : ∀ c inp, ev ≠ Event.start c inp)
    (hfin : ∀ v r, ev = Event.finish v r →
      ∃ inp, Event.start v inp ∈ s.trace ∧ G.work v inp = Except.ok r)
    (hntf : ∀ p c r, ev ≠ Event.notify p c r)
    (hres : ∀ v r, ev = Event.resolve v r →
      ∃ inp, Event.start v inp ∈ s.trace ∧ G.work v inp = Except.ok r) :
    EInv G root input
      { statuses := s.statuses, running := running', trace := s.trace ++ [ev] } := by
  refine ⟨getElem?_append_of_lt _ hinv.first, ?_, ?_, hinv.keys_par, hinv.keys_nd,
    ?_, ?_, ?_, ?_⟩
  · intro i c inp h
    by_cases hi : i < s.trace.length
    · rw [List.getElem?_append_left hi] at h
      rcases hinv.hb i c inp h with h0 | hpar
      · exact Or.inl h0
      · refine Or.inr fun p hp => ?_
        obtain ⟨j, hj, r, hjr⟩ := hpar p hp
        exact ⟨j, hj, r, getElem?_append_of_lt _ hjr⟩
    · rw [List.getElem?_append_right (Nat.le_of_not_lt hi)] at h
      cases hsub : i - s.trace.length with
      | zero =>
        rw [hsub] at h
        simp only [List.getElem?_cons_zero, Option.some.injEq] at h
        exact absurd h (hstart c inp)
      | succ k =>
        rw [hsub] at h
        simp at h
  · intro c p val h
    exact List.mem_append_left _ (hinv.rec_fin c p val h)
  · intro v inp h
    exact List.mem_append_left _ (hinv.run_st v inp (hrun h))
  · intro v r h
    rcases List.mem_append.mp h with hold | hnew
    · obtain ⟨inp, hs, hw⟩ := hinv.fin_work v r hold
      exact ⟨inp, List.mem_append_left _ hs, hw⟩
    · obtain ⟨inp, hs, hw⟩ := hfin v r (List.mem_singleton.mp hnew).symm
      exact ⟨inp, List.mem_append_left _ hs, hw⟩
  · intro p c r h
    rcases List.mem_append.mp h with hold | hnew
    · exact List.mem_append_left _ (hinv.ntf_fin p c r hold)
    · exact absurd (List.mem_singleton.mp hnew).symm (hntf p c r)
  · intro v r h
    rcases List.mem_append.mp h with hold | hnew
    · obtain ⟨inp, hs, hw⟩ := hinv.res_work v r hold
      exact ⟨inp, List.mem_append_left _ hs, hw⟩
    · obtain ⟨inp, hs, hw⟩ := hres v r (List.mem_singleton.mp hnew).symm
      exact ⟨inp, List.mem_append_left _ hs, hw⟩

theorem upd_some_parents_reported (ps : List Nat) (st : List (Nat × JSVal))
    (k : Nat) (v inp : JSVal)
    (hkeys : ∀ x ∈ st.map Prod.fst, x ∈ ps)
    (hknd : (st.map Prod.fst).Nodup)
    (hk : k ∈ ps)
    (hfire : (updateParentStatus ⟨ps, st⟩ k v).2 = some inp) :
    ∀ q ∈ ps, ∃ val, (q, val) ∈ mapSet st k v := by
  have h1 : 1 ≤ ps.length := List.length_pos.mpr (List.ne_nil_of_mem hk)
  have hsome : ((updateParentStatus ⟨ps, st⟩ k v).2).isSome := by rw [hfire]; rfl
  have hlen := (upd_fire_iff ⟨ps, st⟩ k v h1).mp hsome
  have hsub : ∀ x ∈ (mapSet st k v).map Prod.fst, x ∈ ps := by
    rw [keys_mapSet]
    by_cases hm : k ∈ st.map Prod.fst
    · simpa [hm] using hkeys
    · simp only [hm, if_false]
      intro x hx
      rcases List.mem_append.mp hx with hx | hx
      · exact hkeys x hx
      · simp at hx; subst hx; exact hk
  have hnd' := nodup_keys_mapSet k v hknd
  intro q hq
  by_cases hqk : q ∈ (mapSet st k v).map Prod.fst
  · rcases List.mem_map.mp hqk with ⟨⟨q', val⟩, hmem, hfst⟩
    dsimp at hfst
    subst hfst
    exact ⟨val, hmem⟩
  · exfalso
    have hsub2 : ∀ x ∈ (mapSet st k v).map Prod.fst, x ∈ ps.erase q := by
      intro x hx
      have hxps := hsub x hx
      have hxq : x ≠ q := fun he => hqk (he ▸ hx)
      exact (List.mem_erase_of_ne hxq).mpr hxps
    have hle := List.Subperm.length_le
      (List.subperm_of_subset hnd' (fun x hx => hsub2 x hx))
    have herase : (ps.erase q).length = ps.length - 1 := List.length_erase_of_mem hq
    have hml : ((mapSet st k v).map Prod.fst).length = (mapSet st k v).length := by simp
    dsimp only at hlen
    omega

theorem fanoutStep_inv (G : ExecGraph) (root : Nat) (input : JSVal)
    (hwf : EWF G) (p : Nat) (r : JSVal) (c : Nat) (s : EState)
    (hc : c ∈ G.children p)
    (hfin : Event.finish p r ∈ s.trace)
    (hinv : EInv G root input s) :
    EInv G root input (fanoutStep G p r c s) := by
  have hpc : p ∈ G.parents c := hwf.1 p c hc
  have hrecfin : ∀ q val, (q, val) ∈ mapSet (s.statuses c) p r →
      Event.finish q val ∈ s.trace := by
    intro q val hmem
    rcases mem_mapSet hmem with hold | hnew
    · exact hinv.rec_fin c q val hold
    · have hq : q = p := congrArg Prod.fst hnew
      have hv : val = r := congrArg Prod.snd hnew
      rw [hq, hv]
      exact hfin
  rcases hupd : (updateParentStatus ⟨G.parents c, s.statuses c⟩ p r).2 with _ | inp
  all_goals
    simp only [fanoutStep, hupd, upd_fst]
  -- no firing: only a notify event is appended
  case none =>
    refine ⟨getElem?_append_of_lt _ hinv.first, ?_, ?_, ?_, ?_, ?_, ?_, ?_, ?_⟩
    · intro i c' inp' h
      dsimp only at h ⊢
      by_cases hi : i < s.trace.length
      · rw [List.getElem?_append_left hi] at h
        rcases hinv.hb i c' inp' h with h0 | hpar
        · exact Or.inl h0
        · refine Or.inr fun q hqp => ?_
          obtain ⟨j, hj, rr, hjr⟩ := hpar q hqp
          exact ⟨j, hj, rr, getElem?_append_of_lt _ hjr⟩
      · rw [List.getElem?_append_right (Nat.le_of_not_lt hi)] at h
        cases hsub : i - s.trace.length with
        | zero => rw [hsub] at h; simp at h
        | succ k => rw [hsub] at h; simp at h
    · intro c' q val hmem
      dsimp only at hmem ⊢
      by_cases hcc : c' = c
      · subst hcc
        rw [if_pos rfl] at hmem
        exact List.mem_append_left _ (hrecfin q val hmem)
      · rw [if_neg hcc] at hmem
        exact List.mem_append_left _ (hinv.rec_fin c' q val hmem)
    · intro c' q hmem
      dsimp only at hmem ⊢
      by_cases hcc : c' = c
      · subst hcc
        rw [if_pos rfl] at hmem
        rw [keys_mapSet] at hmem
        by_cases hm : p ∈ (s.statuses c').map Prod.fst
        · rw [if_pos hm] at hmem
          exact hinv.keys_par c' q hmem
        · rw [if_neg hm] at hmem
          rcases List.mem_append.mp hmem with hx | hx
          · exact hinv.keys_par c' q hx
          · simp at hx; subst hx; exact hpc
      · rw [if_neg hcc] at hmem
        exact hinv.keys_par c' q hmem
    · intro c'
      dsimp only
      by_cases hcc : c' = c
      · subst hcc
        rw [if_pos rfl]
        exact nodup_keys_mapSet p r (hinv.keys_nd c')
      · rw [if_neg hcc]
        exact hinv.keys_nd c'
    · intro v' inp' hmem
      dsimp only at hmem ⊢
      rw [List.append_nil] at hmem
      exact List.mem_append_left _ (hinv.run_st v' inp' hmem)
    · intro v' rr h
      rcases List.mem_append.mp h with hold | hnew
      · obtain ⟨inp', hs, hw⟩ := hinv.fin_work v' rr hold
        exact ⟨inp', List.mem_append_left _ hs, hw⟩
      · simp at hnew
    · intro q c' rr h
      rcases List.mem_append.mp h with hold | hnew
      · exact List.mem_append_left _ (hinv.ntf_fin q c' rr hold)
      · simp only [List.mem_singleton] at hnew
        injection hnew with hq hcq hrr
        rw [hq, hrr]
        exact List.mem_append_left _ hfin
    · intro v' rr h
      rcases List.mem_append.mp h with hold | hnew
      · obtain ⟨inp', hs, hw⟩ := hinv.res_work v' rr hold
        exact ⟨inp', List.mem_append_left _ hs, hw⟩
      · simp at hnew
  -- the child fires: a notify and a start event are appended
  case some =>
    have hall := upd_some_parents_reported (G.parents c) (s.statuses c) p r inp
      (hinv.keys_par c) (hinv.keys_nd c) hpc hupd
    refine ⟨getElem?_append_of_lt _ hinv.first, ?_, ?_, ?_, ?_, ?_, ?_, ?_, ?_⟩
    · intro i c' inp' h
      dsimp only at h ⊢
      by_cases hi : i < s.trace.length
      · rw [List.getElem?_append_left hi] at h
        rcases hinv.hb i c' inp' h with h0 | hpar
        · exact Or.inl h0
        · refine Or.inr fun q hqp => ?_
          obtain ⟨j, hj, rr, hjr⟩ := hpar q hqp
          exact ⟨j, hj, rr, getElem?_append_of_lt _ hjr⟩
      · rw [List.getElem?_append_right (Nat.le_of_not_lt hi)] at h
        cases hsub : i - s.trace.length with
        | zero => rw [hsub] at h; simp at h
        | succ k =>
          rw [hsub] at h
          cases k with
          | zero =>
            simp only [List.getElem?_cons_succ, List.getElem?_cons_zero,
              Option.some.injEq] at h
            injection h with hcc hii
            subst hcc
            refine Or.inr fun q hqp => ?_
            obtain ⟨val, hval⟩ := hall q hqp
            obtain ⟨j, hjget, hjlt⟩ := exists_getElem?_of_mem (hrecfin q val hval)
            refine ⟨j, by omega, val, getElem?_append_of_lt _ hjget⟩
          | succ k2 => simp at h
    · intro c' q val hmem
      dsimp only at hmem ⊢
      by_cases hcc : c' = c
      · subst hcc
        rw [if_pos rfl] at hmem
        exact List.mem_append_left _ (hrecfin q val hmem)
      · rw [if_neg hcc] at hmem
        exact List.mem_append_left _ (hinv.rec_fin c' q val hmem)
    · intro c' q hmem
      dsimp only at hmem ⊢
      by_cases hcc : c' = c
      · subst hcc
        rw [if_pos rfl] at hmem
        rw [keys_mapSet] at hmem
        by_cases hm : p ∈ (s.statuses c').map Prod.fst
        · rw [if_pos hm] at hmem
          exact hinv.keys_par c' q hmem
        · rw [if_neg hm] at hmem
          rcases List.mem_append.mp hmem with hx | hx
          · exact hinv.keys_par c' q hx
          · simp at hx; subst hx; exact hpc
      · rw [if_neg hcc] at hmem
        exact hinv.keys_par c' q hmem
    · intro c'
      dsimp only
      by_cases hcc : c' = c
      · subst hcc
        rw [if_pos rfl]
        exact nodup_keys_mapSet p r (hinv.keys_nd c')
      · rw [if_neg hcc]
        exact hinv.keys_nd c'
    · intro v' inp' hmem
      dsimp only at hmem ⊢
      rcases List.mem_append.mp hmem with hold | hnew
      · exact List.mem_append_left _ (hinv.run_st v' inp' hold)
      · simp only [List.mem_singleton] at hnew
        have hv : v' = c := congrArg Prod.fst hnew
        have hi : inp' = inp := congrArg Prod.snd hnew
        rw [hv, hi]
        refine List.mem_append_right _ ?_
        simp
    · intro v' rr h
      rcases List.mem_append.mp h with hold | hnew
      · obtain ⟨inp', hs, hw⟩ := hinv.fin_work v' rr hold
        exact ⟨inp', List.mem_append_left _ hs, hw⟩
      · simp at hnew
    · intro q c' rr h
      rcases List.mem_append.mp h with hold | hnew
      · exact List.mem_append_left _ (hinv.ntf_fin q c' rr hold)
      · simp only [List.mem_cons, List.mem_singleton] at hnew
        rcases hnew with hnew | hnew
        · injection hnew with hq hcq hrr
          rw [hq, hrr]
          exact List.mem_append_left _ hfin
        · simp at hnew
    · intro v' rr h
      rcases List.mem_append.mp h with hold | hnew
      · obtain ⟨inp', hs, hw⟩ := hinv.res_work v' rr hold
        exact ⟨inp', List.mem_append_left _ hs, hw⟩
      · simp at hnew

theorem fanout_inv (G : ExecGraph) (root : Nat) (input : JSVal)
    (hwf : EWF G) (p : Nat) (r : JSVal) :
    ∀ cs s, (∀ c ∈ cs, c ∈ G.children p) →
      Event.finish p r ∈ s.trace →
      EInv G root input s →
      EInv G root input (fanout G p r cs s) := by
  intro cs
  induction cs with
  | nil => intro s _ _ hinv; exact hinv
  | cons c rest ih =>
    intro s hcs hfin hinv
    simp only [fanout]
    refine ih (fanoutStep G p r c s) (fun c' hc' => hcs c' (by simp [hc'])) ?_
      (fanoutStep_inv G root input hwf p r c s (hcs c (by simp)) hfin hinv)
    rcases hupd : (updateParentStatus ⟨G.parents c, s.statuses c⟩ p r).2 with _ | inp
    all_goals simp only [fanoutStep, hupd]
    · exact List.mem_append_left _ hfin
    · exact List.mem_append_left _ hfin

theorem fanoutStep_trace (G : ExecGraph) (p : Nat) (r : JSVal) (c : Nat) (s : EState) :
    ∃ t, (fanoutStep G p r c s).trace = s.trace ++ t
      ∧ ∀ e ∈ t, (∃ c' rr, e = Event.notify p c' rr) ∨ (∃ c' i', e = Event.start c' i') := by
  rcases hupd : (updateParentStatus ⟨G.parents c, s.statuses c⟩ p r).2 with _ | inp
  · refine ⟨[Event.notify p c r], by simp [fanoutStep, hupd], ?_⟩
    intro e he
    simp only [List.mem_singleton] at he
    subst he
    exact Or.inl ⟨c, r, rfl⟩
  · refine ⟨[Event.notify p c r, Event.start c inp], by simp [fanoutStep, hupd], ?_⟩
    intro e he
    rcases List.mem_cons.mp he with rfl | he
    · exact Or.inl ⟨c, r, rfl⟩
    · simp only [List.mem_singleton] at he
      subst he
      exact Or.inr ⟨c, inp, rfl⟩

theorem fanout_trace (G : ExecGraph) (p : Nat) (r : JSVal) :
    ∀ cs s, ∃ t, (fanout G p r cs s).trace = s.trace ++ t
      ∧ ∀ e ∈ t, (∃ c' rr, e = Event.notify p c' rr) ∨ (∃ c' i', e = Event.start c' i') := by
  intro cs
  induction cs with
  | nil => intro s; exact ⟨[], by simp [fanout], by simp⟩
  | cons c rest ih =>
    intro s
    obtain ⟨t1, ht1, hev1⟩ := fanoutStep_trace G p r c s
    obtain ⟨t2, ht2, hev2⟩ := ih (fanoutStep G p r c s)
    refine ⟨t1 ++ t2, ?_, ?_⟩
    · simp only [fanout]
      rw [ht2, ht1, List.append_assoc]
    · intro e he
      rcases List.mem_append.mp he with he | he
      · exact hev1 e he
      · exact hev2 e he

theorem stepAt_error (G : ExecGraph) (s : EState) (i : Fin s.running.length) (e : JSVal)
    (hw : G.work (s.running.get i).1 (s.running.get i).2 = Except.error e) :
    stepAt G s i =
      { statuses := s.statuses, running := s.running.eraseIdx i,
        trace := s.trace ++ [Event.fail (s.running.get i).1 e] } := by
  simp only [stepAt, hw]

theorem stepAt_ok (G : ExecGraph) (s : EState) (i : Fin s.running.length) (r : JSVal)
    (hw : G.work (s.running.get i).1 (s.running.get i).2 = Except.ok r) :
    stepAt G s i =
      { statuses := (fanout G (s.running.get i).1 r (G.children (s.running.get i).1)
            { statuses := s.statuses, running := s.running.eraseIdx i,
              trace := s.trace ++ [Event.finish (s.running.get i).1 r] }).statuses
        running := (fanout G (s.running.get i).1 r (G.children (s.running.get i).1)
            { statuses := s.statuses, running := s.running.eraseIdx i,
              trace := s.trace ++ [Event.finish (s.running.get i).1 r] }).running
        trace := (fanout G (s.running.get i).1 r (G.children (s.running.get i).1)
            { statuses := s.statuses, running := s.running.eraseIdx i,
              trace := s.trace ++ [Event.finish (s.running.get i).1 r] }).trace
          ++ [Event.resolve (s.running.get i).1 r] } := by
  simp only [stepAt, hw]

theorem stepAt_inv (G : ExecGraph) (root : Nat) (input : JSVal)
    (hwf : EWF G) (s : EState) (i : Fin s.running.length)
    (hinv : EInv G root input s) : EInv G root input (stepAt G s i) := by
  have hmem : s.running.get i ∈ s.running := s.running.get_mem i.1 i.2
  have hstart : Event.start (s.running.get i).1 (s.running.get i).2 ∈ s.trace := by
    refine hinv.run_st (s.running.get i).1 (s.running.get i).2 ?_
    simp only [Prod.mk.eta]
    exact hmem
  rcases hw : G.work (s.running.get i).1 (s.running.get i).2 with e | r
  · rw [stepAt_error G s i e hw]
    exact einv_extend G root input s _ _ hinv (List.eraseIdx_subset _ _)
      (fun c inp h => Event.noConfusion h)
      (fun v rr h => Event.noConfusion h)
      (fun p c rr h => Event.noConfusion h)
      (fun v rr h => Event.noConfusion h)
  · have hinv1 : EInv G root input
        { statuses := s.statuses, running := s.running.eraseIdx i,
          trace := s.trace ++ [Event.finish (s.running.get i).1 r] } := by
      refine einv_extend G root input s _ _ hinv (List.eraseIdx_subset _ _)
        (fun c inp h => Event.noConfusion h) ?_
        (fun p c rr h => Event.noConfusion h)
        (fun v rr h => Event.noConfusion h)
      intro v rr h
      injection h with h1 h2
      exact ⟨(s.running.get i).2, by rw [← h1]; exact hstart,
        by rw [← h1, ← h2]; exact hw⟩
    have hfin1 : Event.finish (s.running.get i).1 r ∈
        (s.trace ++ [Event.finish (s.running.get i).1 r]) :=
      List.mem_append_right _ (by simp)
    have hinv2 := fanout_inv G root input hwf (s.running.get i).1 r
      (G.children (s.running.get i).1) _ (fun c hc => hc) hfin1 hinv1
    rw [stepAt_ok G s i r hw]
    obtain ⟨t2, ht2, _⟩ := fanout_trace G (s.running.get i).1 r
      (G.children (s.running.get i).1)
      { statuses := s.statuses, running := s.running.eraseIdx i,
        trace := s.trace ++ [Event.finish (s.running.get i).1 r] }
    refine einv_extend G root input _ _ _ hinv2 (fun x hx => hx)
      (fun c inp h => Event.noConfusion h)
      (fun v rr h => Event.noConfusion h)
      (fun p c rr h => Event.noConfusion h)
      ?_
    intro v rr h
    injection h with h1 h2
    refine ⟨(s.running.get i).2, ?_, by rw [← h1, ← h2]; exact hw⟩
    rw [ht2]
    dsimp only
    rw [← h1]
    exact List.mem_append_left _ (List.mem_append_left _ hstart)

theorem reachable_inv (G : ExecGraph) (root : Nat) (input : JSVal) (s : EState)
    (hwf : EWF G) (hreach : ReachableFrom G root input s) : EInv G root input s := by
  induction hreach with
  | refl => exact init_inv G root input
  | tail _ hstep ih =>
    obtain ⟨i, rfl⟩ := hstep
    exact stepAt_inv G root input hwf _ i ih

theorem estep_trace_extend (G : ExecGraph) {s s' : EState} (h : EStep G s s') :
    ∃ t, s'.trace = s.trace ++ t := by
  obtain ⟨i, rfl⟩ := h
  rcases hw : G.work (s.running.get i).1 (s.running.get i).2 with e | r
  · rw [stepAt_error G s i e hw]
    exact ⟨[Event.fail (s.running.get i).1 e], rfl⟩
  · rw [stepAt_ok G s i r hw]
    obtain ⟨t, ht, _⟩ := fanout_trace G (s.running.get i).1 r
      (G.children (s.running.get i).1)
      { statuses := s.statuses, running := s.running.eraseIdx i,
        trace := s.trace ++ [Event.finish (s.running.get i).1 r] }
    refine ⟨[Event.finish (s.running.get i).1 r] ++ t
      ++ [Event.resolve (s.running.get i).1 r], ?_⟩
    dsimp only
    rw [ht]
    dsimp only
    simp [List.append_assoc]

theorem reflTrans_trace_extend (G : ExecGraph) {s s' : EState}
    (h : Relation.ReflTransGen (EStep G) s s') : ∃ t, s'.trace = s.trace ++ t := by
  induction h with
  | refl => exact ⟨[], by simp⟩
  | tail _ hstep ih =>
    obtain ⟨t1, ht1⟩ := ih
    obtain ⟨t2, ht2⟩ := estep_trace_extend G hstep
    exact ⟨t1 ++ t2, by rw [ht2, ht1, List.append_assoc]⟩

theorem lineGraph_wf : EWF lineGraph := by
  constructor
  · intro p c hc
    simp only [lineGraph] at hc ⊢
    by_cases hp : p = 0
    · rw [hp] at hc
      simp at hc
      subst hc
      simp [hp]
    · rw [if_neg hp] at hc
      simp at hc
  · intro v
    simp only [lineGraph]
    split <;> simp

theorem failGraph_wf : EWF failGraph := by
  constructor
  · intro p c hc
    simp only [failGraph] at hc ⊢
    by_cases hp : p = 0
    · rw [hp] at hc
      simp at hc
      subst hc
      simp [hp]
    · rw [if_neg hp] at hc
      simp at hc
  · intro v
    simp only [failGraph]
    split <;> simp

/-- C6: strict happens-before. In any state reachable during the wave started
by `execute(input)` on `root`, over a graph whose edges were committed by
`addChild` before execution (children/parents records consistent, parents
duplicate-free), every traced work start of a vertex other than the entry
vertex is strictly preceded in the trace by a successful work finish of each
of that vertex's registered parents. -/
theorem c6_happens_before (G : ExecGraph) (root : Nat) (input : JSVal) (s : EState)
    (hwf : EWF G) (hreach : ReachableFrom G root input s) :
    ∀ (i c : Nat) (inp : JSVal), s.trace[i]? = some (Event.start c inp) → c ≠ root →
      ∀ p ∈ G.parents c, ∃ j : Nat, j < i ∧ ∃ r, s.trace[j]? = some (Event.finish p r) := by
  have hinv := reachable_inv G root input s hwf hreach
  intro i c inp hi hc p hp
  rcases hinv.hb i c inp hi with rfl | hpar
  · exfalso
    have hfirst := hinv.first
    rw [hi] at hfirst
    injection hfirst with he
    simp only [Event.start.injEq] at he
    exact hc he.1
  · exact hpar p hp

theorem c6_happens_before_witness :
    ∃ j, j < 3 ∧ ∃ r, lineStep1.trace[j]? = some (Event.finish 0 r) :=
  c6_happens_before lineGraph 0 (JSVal.num 1) lineStep1 lineGraph_wf
    (Relation.ReflTransGen.single ⟨⟨0, Nat.zero_lt_one⟩, rfl⟩)
    3 1 (JSVal.num 1) (by rfl) (by decide) 0 (by simp [lineGraph])

/-- C7: fail-fast isolation. (i) A completion step of a task whose work
rejects records only the `fail` event carrying the work's own error value: the
statuses stay untouched and no child is notified or started — the rejection
propagates unchanged to whoever awaited that `execute` call. (ii) In any
reachable state of a wave, a vertex `p` whose work always rejects has notified
no child, and no descendant of `p` (along children edges avoiding the entry
vertex) has ever started — they remain unfired for the wave. -/
theorem c7_failure_isolation (G : ExecGraph) (root : Nat) (input : JSVal)
    (s : EState) (p : Nat)
    (hwf : EWF G) (hreach : ReachableFrom G root input s)
    (hfail : ∀ inp, ∃ e, G.work p inp = Except.error e) :
    (∀ (s' : EState) (i : Fin s'.running.length) (e : JSVal),
      G.work (s'.running.get i).1 (s'.running.get i).2 = Except.error e →
      stepAt G s' i =
        { statuses := s'.statuses, running := s'.running.eraseIdx i,
          trace := s'.trace ++ [Event.fail (s'.running.get i).1 e] })
    ∧ (∀ c r, Event.notify p c r ∉ s.trace)
    ∧ (∀ d, Relation.TransGen (fun a b => b ∈ G.children a ∧ b ≠ root) p d →
        ∀ inp, Event.start d inp ∉ s.trace) := by
  have hinv := reachable_inv G root input s hwf hreach
  have hnofin : ∀ r, Event.finish p r ∉ s.trace := by
    intro r hr
    obtain ⟨inp, _, hwork⟩ := hinv.fin_work p r hr
    obtain ⟨e, he⟩ := hfail inp
    rw [hwork] at he
    exact Except.noConfusion he
  have hkey : ∀ q, (∀ r, Event.finish q r ∉ s.trace) →
      ∀ d, d ∈ G.children q → d ≠ root → ∀ inp, Event.start d inp ∉ s.trace := by
    intro q hqnofin d hdc hdroot inp hmem
    obtain ⟨i, hi, _⟩ := exists_getElem?_of_mem hmem
    rcases hinv.hb i d inp hi with rfl | hpar
    · have hfirst := hinv.first
      rw [hi] at hfirst
      injection hfirst with he
      simp only [Event.start.injEq] at he
      exact hdroot he.1
    · obtain ⟨j, _, r, hjr⟩ := hpar q (hwf.1 q d hdc)
      exact hqnofin r (List.getElem?_mem hjr)
  refine ⟨fun s' i e hw => stepAt_error G s' i e hw, ?_, ?_⟩
  · intro c r hmem
    exact hnofin r (hinv.ntf_fin p c r hmem)
  · intro d hpath
    induction hpath with
    | single hd => exact hkey p hnofin _ hd.1 hd.2
    | tail _ hd ih =>
      refine hkey _ ?_ _ hd.1 hd.2
      intro r hr
      obtain ⟨inp2, hstart2, _⟩ := hinv.fin_work _ r hr
      exact ih inp2 hstart2

theorem c7_failure_isolation_witness :
    (stepAt failGraph (initState 0 JSVal.null) ⟨0, Nat.zero_lt_one⟩ =
      { statuses := (initState 0 JSVal.null).statuses,
        running := (initState 0 JSVal.null).running.eraseIdx 0,
        trace := (initState 0 JSVal.null).trace ++ [Event.fail 0 (JSVal.str "boom")] })
    ∧ (Event.notify 0 1 JSVal.null ∉ failStep1.trace)
    ∧ (Event.start 1 JSVal.null ∉ failStep1.trace) := by
  have h := c7_failure_isolation failGraph 0 JSVal.null failStep1 0 failGraph_wf
    (Relation.ReflTransGen.single ⟨⟨0, Nat.zero_lt_one⟩, rfl⟩)
    (fun inp => ⟨JSVal.str "boom", rfl⟩)
  exact ⟨h.1 (initState 0 JSVal.null) ⟨0, Nat.zero_lt_one⟩ (JSVal.str "boom") rfl,
    h.2.1 1 JSVal.null,
    h.2.2 1 (Relation.TransGen.single ⟨by simp [failGraph], by decide⟩) JSVal.null⟩

/-- C10: the promise returned by `execute` resolves with the vertex's own work
result in the very step that completes the work: the `resolve` event carries
exactly the work's output, the events between `finish` and `resolve` are only
un-awaited fan-out notifications and child work starts (no descendant
completion is awaited), traces only ever grow (a later descendant failure
cannot retract or change an ancestor's resolution), and every traced
resolution value is the output of that vertex's own work on its own starting
input. -/
theorem c10_resolve_own_result (G : ExecGraph) (root : Nat) (input : JSVal)
    (hwf : EWF G) :
    (∀ (s : EState) (i : Fin s.running.length) (r : JSVal),
      G.work (s.running.get i).1 (s.running.get i).2 = Except.ok r →
      ∃ t, (stepAt G s i).trace
          = s.trace ++ [Event.finish (s.running.get i).1 r] ++ t
              ++ [Event.resolve (s.running.get i).1 r]
        ∧ ∀ e ∈ t, (∃ q c rr, e = Event.notify q c rr) ∨ (∃ c ci, e = Event.start c ci))
    ∧ (∀ s s', Relation.ReflTransGen (EStep G) s s' → ∃ t, s'.trace = s.trace ++ t)
    ∧ (∀ s, ReachableFrom G root input s → ∀ v r, Event.resolve v r ∈ s.trace →
        ∃ inp, Event.start v inp ∈ s.trace ∧ G.work v inp = Except.ok r) := by
  refine ⟨?_, fun s s' h => reflTrans_trace_extend G h, ?_⟩
  · intro s i r hw
    rw [stepAt_ok G s i r hw]
    obtain ⟨t, ht, hev⟩ := fanout_trace G (s.running.get i).1 r
      (G.children (s.running.get i).1)
      { statuses := s.statuses, running := s.running.eraseIdx i,
        trace := s.trace ++ [Event.finish (s.running.get i).1 r] }
    refine ⟨t, ?_, ?_⟩
    · dsimp only
      rw [ht]
    · intro e he
      rcases hev e he with ⟨c', rr, hne⟩ | ⟨c', ci, hne⟩
      · exact Or.inl ⟨(s.running.get i).1, c', rr, hne⟩
      · exact Or.inr ⟨c', ci, hne⟩
  · intro s hreach v r hres
    exact (reachable_inv G root input s hwf hreach).res_work v r hres

theorem c10_resolve_own_result_witness :
    (∃ t, lineStep1.trace
        = (initState 0 (JSVal.num 1)).trace ++ [Event.finish 0 (JSVal.num 1)] ++ t
            ++ [Event.resolve 0 (JSVal.num 1)]
      ∧ ∀ e ∈ t, (∃ q c rr, e = Event.notify q c rr) ∨ (∃ c ci, e = Event.start c ci))
    ∧ (∃ inp, Event.start 0 inp ∈ lineStep1.trace
        ∧ lineGraph.work 0 inp = Except.ok (JSVal.num 1)) := by
  have h := c10_resolve_own_result lineGraph 0 (JSVal.num 1) lineGraph_wf
  constructor
  · exact h.1 (initState 0 (JSVal.num 1)) ⟨0, Nat.zero_lt_one⟩ (JSVal.num 1) rfl
  · refine h.2.2 lineStep1 (Relation.ReflTransGen.single ⟨⟨0, Nat.zero_lt_one⟩, rfl⟩)
      0 (JSVal.num 1) ?_
    rw [show lineStep1.trace = [Event.start 0 (JSVal.num 1), Event.finish 0 (JSVal.num 1),
      Event.notify 0 1 (JSVal.num 1), Event.start 1 (JSVal.num 1),
      Event.resolve 0 (JSVal.num 1)] from rfl]
    simp

end TsDag
